import Mathlib

/-!
Shallow embedding of the coding-engine repository (a Verilog code-intelligence
server written in TypeScript) and proofs about it.

Conventions used throughout this development:
* JavaScript `Map` objects are modelled as insertion-ordered association lists
  (`JsMap`); `Map.set` replaces an existing binding in place (keeping its
  position, as the JS spec requires) and otherwise appends.
* JavaScript `Set` objects are modelled as insertion-ordered duplicate-free
  lists (`setAdd` / `setDelete`).
* File-system paths are taken to be already-normalized absolute POSIX paths,
  so `path.resolve` is the identity on them.
* JS strings are modelled by Lean `String` / `List Char`; the repository only
  manipulates ASCII identifiers, for which JS `toLowerCase`, `\w` and `\s`
  agree with the ASCII functions used here.
-/

namespace CodingEngine

/-! ### JS `Map` and `Set` modelled as ordered association lists -/

abbrev JsMap (α : Type) : Type := List (String × α)

def mapGet {α : Type} (m : JsMap α) (k : String) : Option α :=
  (List.find? (fun e => e.1 = k) m).map (fun e => e.2)

def mapSet {α : Type} (m : JsMap α) (k : String) (v : α) : JsMap α :=
  match m with
  | [] => [(k, v)]
  | e :: rest => if e.1 = k then (k, v) :: rest else e :: mapSet rest k v

def mapDelete {α : Type} (m : JsMap α) (k : String) : JsMap α :=
  List.filter (fun e => decide (e.1 ≠ k)) m

def mapEntries {α : Type} (m : JsMap α) : List (String × α) := m

def setAdd (s : List String) (x : String) : List String :=
  if x ∈ s then s else s ++ [x]

def setDelete (s : List String) (x : String) : List String :=
  List.filter (fun y => decide (y ≠ x)) s

theorem mapGet_nil {α : Type} (k : String) : mapGet ([] : JsMap α) k = none := rfl

theorem mapGet_mapSet_self {α : Type} (m : JsMap α) (k : String) (v : α) :
    mapGet (mapSet m k v) k = some v := by
  induction m with
  | nil => simp [mapSet, mapGet]
  | cons e rest ih =>
    by_cases h : e.1 = k
    · simp [mapSet, h, mapGet, List.find?]
    · simp only [mapSet, if_neg h]
      simpa [mapGet, List.find?, h] using ih

theorem mapGet_mapSet_ne {α : Type} (m : JsMap α) (k j : String) (v : α)
    (h : j ≠ k) : mapGet (mapSet m k v) j = mapGet m j := by
  induction m with
  | nil => simp [mapSet, mapGet, List.find?, Ne.symm h]
  | cons e rest ih =>
    by_cases he : e.1 = k
    · subst he
      simp [mapSet, mapGet, List.find?, Ne.symm h]
    · simp only [mapSet, if_neg he]
      by_cases hj : e.1 = j
      · simp [mapGet, List.find?, hj]
      · simp only [mapGet, List.find?, hj] at ih ⊢
        simp [hj, ih]

theorem mapGet_eq_none_iff {α : Type} (m : JsMap α) (k : String) :
    mapGet m k = none ↔ ∀ e ∈ m, e.1 ≠ k := by
  simp [mapGet, List.find?_eq_none]

theorem mem_of_mapGet_eq_some {α : Type} {m : JsMap α} {k : String} {v : α}
    (h : mapGet m k = some v) : (k, v) ∈ m := by
  simp only [mapGet, Option.map_eq_some'] at h
  obtain ⟨e, he, hv⟩ := h
  have h1 := List.find?_some he
  have h2 := List.mem_of_find?_eq_some he
  simp only [decide_eq_true_eq] at h1
  cases e
  subst hv h1
  simpa using h2

theorem mapGet_eq_some_of_mem {α : Type} {m : JsMap α} {k : String} {v : α}
    (hnd : (m.map Prod.fst).Nodup) (h : (k, v) ∈ m) : mapGet m k = some v := by
  induction m with
  | nil => simp at h
  | cons e rest ih =>
    simp only [List.map_cons, List.nodup_cons] at hnd
    rcases List.mem_cons.mp h with h1 | h1
    · subst h1
      simp [mapGet, List.find?]
    · have hne : e.1 ≠ k := by
        intro hh
        exact hnd.1 (by
          have : k ∈ rest.map Prod.fst := List.mem_map.mpr ⟨(k, v), h1, rfl⟩
          simpa [hh] using this)
      have := ih hnd.2 h1
      simpa [mapGet, List.find?, hne] using this

theorem mem_mapSet {α : Type} {m : JsMap α} {k : String} {v : α} {e : String × α}
    (h : e ∈ mapSet m k v) : e = (k, v) ∨ e ∈ m := by
  induction m with
  | nil => simpa [mapSet] using h
  | cons f rest ih =>
    by_cases hf : f.1 = k
    · simp only [mapSet, if_pos hf] at h
      rcases List.mem_cons.mp h with h1 | h1
      · exact Or.inl h1
      · exact Or.inr (List.mem_cons.mpr (Or.inr h1))
    · simp only [mapSet, if_neg hf] at h
      rcases List.mem_cons.mp h with h1 | h1
      · exact Or.inr (List.mem_cons.mpr (Or.inl h1))
      · rcases ih h1 with h2 | h2
        · exact Or.inl h2
        · exact Or.inr (List.mem_cons.mpr (Or.inr h2))

theorem mapSet_keys_nodup {α : Type} {m : JsMap α} (k : String) (v : α)
    (hnd : (m.map Prod.fst).Nodup) : ((mapSet m k v).map Prod.fst).Nodup := by
  induction m with
  | nil => simp [mapSet]
  | cons e rest ih =>
    simp only [List.map_cons, List.nodup_cons] at hnd
    by_cases hf : e.1 = k
    · subst hf
      simpa [mapSet, List.nodup_cons] using hnd
    · simp only [mapSet, if_neg hf, List.map_cons, List.nodup_cons]
      constructor
      · intro hmem
        -- e.1 occurs among keys of mapSet rest k v: it is k or an old key
        have : ∀ x ∈ mapSet rest k v, x.1 = e.1 → False := by
          intro x hx hx1
          rcases mem_mapSet hx with h1 | h1
          · rw [h1] at hx1; exact hf hx1.symm
          · exact hnd.1 (hx1 ▸ List.mem_map.mpr ⟨x, h1, rfl⟩)
        obtain ⟨x, hx, hx1⟩ := List.mem_map.mp hmem
        exact this x hx hx1
      · exact ih hnd.2

theorem mem_mapDelete {α : Type} {m : JsMap α} {k : String} {e : String × α}
    (h : e ∈ mapDelete m k) : e ∈ m ∧ e.1 ≠ k := by
  have := List.mem_filter.mp h
  simpa using this

theorem mapDelete_keys_nodup {α : Type} {m : JsMap α} (k : String)
    (hnd : (m.map Prod.fst).Nodup) : ((mapDelete m k).map Prod.fst).Nodup := by
  unfold mapDelete
  exact hnd.sublist ((List.filter_sublist m).map Prod.fst)

theorem mem_setAdd {s : List String} {x y : String} (h : y ∈ setAdd s x) :
    y ∈ s ∨ y = x := by
  unfold setAdd at h
  by_cases hx : x ∈ s
  · simp [hx] at h; exact Or.inl h
  · simp [hx] at h
    rcases h with h | h
    · exact Or.inl h
    · exact Or.inr h

theorem mem_setAdd_iff {s : List String} {x y : String} :
    y ∈ setAdd s x ↔ y ∈ s ∨ y = x := by
  constructor
  · exact mem_setAdd
  · intro h
    unfold setAdd
    by_cases hx : x ∈ s
    · rcases h with h | h
      · simpa [hx] using h
      · subst h; simp [hx]
    · rcases h with h | h
      · simp [hx, h]
      · subst h; simp [hx]

theorem self_mem_setAdd (s : List String) (x : String) : x ∈ setAdd s x :=
  mem_setAdd_iff.mpr (Or.inr rfl)

theorem mem_setDelete_iff {s : List String} {x y : String} :
    y ∈ setDelete s x ↔ y ∈ s ∧ y ≠ x := by
  simp [setDelete, List.mem_filter]

/-! ### SymbolIndexer (src/src/core/symbolIndexer.ts): data model -/

structure Symbol where
  id : String
  repo : String
  path : String
  name : String
  kind : String
  startLine : Nat
  endLine : Nat
  nodeType : String
  hash : String
deriving DecidableEq, Repr

/-- JS `ToInt32` coercion (the effect of `hash & hash` on a JS number). -/
def toInt32 (n : Int) : Int := (n + 2 ^ 31) % 2 ^ 32 - 2 ^ 31

def digitToChar (d : Nat) : Char :=
  match d with
  | 0 => '0' | 1 => '1' | 2 => '2' | 3 => '3' | 4 => '4'
  | 5 => '5' | 6 => '6' | 7 => '7' | 8 => '8' | _ => '9'

def natToCharsAux : Nat → Nat → List Char
  | 0, _ => []
  | fuel + 1, n =>
    if n < 10 then [digitToChar n]
    else natToCharsAux fuel (n / 10) ++ [digitToChar (n % 10)]

/-- Decimal rendering of a natural number (JS template-string coercion). -/
def natToString (n : Nat) : String := String.mk (natToCharsAux (n + 1) n)

def intToString (n : Int) : String :=
  if n < 0 then "-" ++ natToString (-n).toNat else natToString n.toNat

/-- `SymbolIndexer.computeHash`: `hash = (hash << 5) - hash + charCode; hash &= hash`.
`hash << 5` coerces its operand and result to int32; the `-`/`+` are exact. -/
def computeHash (input : String) : String :=
  let h := input.data.foldl
    (fun hash c => toInt32 (toInt32 (hash * 32) - hash + (c.toNat : Int))) 0
  intToString h

/-- `path.basename` for normalized absolute POSIX paths: the part after the
last `/`. -/
def basename (p : String) : String :=
  String.mk (p.data.reverse.takeWhile (fun c => c ≠ '/')).reverse

/-- `path.dirname` for normalized absolute POSIX paths: the part before the
last `/`. -/
def dirname (p : String) : String :=
  String.mk ((p.data.reverse.dropWhile (fun c => c ≠ '/')).drop 1).reverse


/-- `SymbolIndexer.generateSymbolId`:
`` `${path.basename(filePath)}:${name}:${line}` ``. -/
def generateSymbolId (filePath name : String) (line : Nat) : String :=
  basename filePath ++ ":" ++ name ++ ":" ++ natToString line

/-! ### Regex-based symbol extraction (`SymbolIndexer.indexSingleFile`)

The six extraction patterns are anchored multiline regexes of the restricted
shape `^\s*keyword\s+…`.  They are modelled by hand-rolled matchers below; each
matcher consumes a `List Char` and returns the captured name together with the
unconsumed rest.  Backtracking is needed (and implemented) only where a
pattern's optional group can fail after consuming input. -/

/-- JS `\w` (ASCII). -/
def isWordChar (c : Char) : Bool := c.isAlpha || c.isDigit || c = '_'

/-- JS `\s` (ASCII range; the sources only contain ASCII whitespace). -/
def isSpaceChar (c : Char) : Bool :=
  c = ' ' || c = '\t' || c = '\n' || c = '\r' || c = '\x0b' || c = '\x0c'

/-- Greedy `\s*`: drop leading whitespace. -/
def wsMany (s : List Char) : List Char := s.dropWhile isSpaceChar

/-- Greedy `\s+`: requires at least one whitespace character. -/
def wsSome (s : List Char) : Option (List Char) :=
  match s with
  | [] => none
  | c :: rest => if isSpaceChar c then some (rest.dropWhile isSpaceChar) else none

/-- Greedy `(\w+)`: captures a nonempty run of word characters. -/
def wordSome (s : List Char) : Option (String × List Char) :=
  let w := s.takeWhile isWordChar
  if w.isEmpty then none else some (String.mk w, s.dropWhile isWordChar)

/-- A literal keyword. -/
def litKw (kw : String) (s : List Char) : Option (List Char) :=
  if kw.data.isPrefixOf s then some (s.drop kw.data.length) else none

/-- `(?:\w+\s+)?(\w+)` — the optional group is taken greedily and dropped
again (regex backtracking) when no second word follows. -/
def optWordTail (s : List Char) : Option (String × List Char) :=
  match wordSome s with
  | none => none
  | some (w1, r1) =>
    match wsSome r1 with
    | none => some (w1, r1)
    | some r2 =>
      match wordSome r2 with
      | none => some (w1, r1)
      | some (w2, r3) => some (w2, r3)

/-- `^\s*module\s+(\w+)` -/
def matchModuleKw (s : List Char) : Option (String × List Char) :=
  (litKw "module" (wsMany s)).bind fun r1 =>
  (wsSome r1).bind fun r2 =>
  wordSome r2

/-- `^\s*task\s+(\w+)` -/
def matchTaskKw (s : List Char) : Option (String × List Char) :=
  (litKw "task" (wsMany s)).bind fun r1 =>
  (wsSome r1).bind fun r2 =>
  wordSome r2

/-- `^\s*function\s+(?:\w+\s+)?(\w+)` -/
def matchFunctionKw (s : List Char) : Option (String × List Char) :=
  (litKw "function" (wsMany s)).bind fun r1 =>
  (wsSome r1).bind fun r2 =>
  optWordTail r2

/-- Ordered alternation of literal keywords (none is a prefix of another, so
this is exact regex alternation semantics). -/
def litAlt (kws : List String) (s : List Char) : Option (List Char) :=
  match kws with
  | [] => none
  | kw :: rest =>
    match litKw kw s with
    | some r => some r
    | none => litAlt rest s

/-- `^\s*(?:input|output|inout)\s+(?:\w+\s+)?(\w+)` -/
def matchPortKw (s : List Char) : Option (String × List Char) :=
  (litAlt ["input", "output", "inout"] (wsMany s)).bind fun r1 =>
  (wsSome r1).bind fun r2 =>
  optWordTail r2

/-- Rests following each closing character candidate for a lazy `.*?X` scan:
the dot cannot cross a newline, and candidates appear lazily (shortest
content first). -/
def afterCloseCandidates (closeCh : Char) : List Char → List (List Char)
  | [] => []
  | c :: rest =>
    if c = '\n' then []
    else if c = closeCh then rest :: afterCloseCandidates closeCh rest
    else afterCloseCandidates closeCh rest

/-- Try a continuation on each candidate rest, lazily (first success wins). -/
def firstTail {β : Type} (k : List Char → Option β) : List (List Char) → Option β
  | [] => none
  | c :: cs =>
    match k c with
    | some res => some res
    | none => firstTail k cs

/-- `(?:\[.*?\]\s+)?(\w+)` — bracketed-range group of the signal pattern. -/
def signalTail (s : List Char) : Option (String × List Char) :=
  match s with
  | '[' :: rest =>
    match firstTail (fun c => (wsSome c).bind wordSome) (afterCloseCandidates ']' rest) with
    | some res => some res
    | none => wordSome s
  | _ => wordSome s

/-- `^\s*(?:wire|reg|logic)\s+(?:\[.*?\]\s+)?(\w+)` -/
def matchSignalKw (s : List Char) : Option (String × List Char) :=
  (litAlt ["wire", "reg", "logic"] (wsMany s)).bind fun r1 =>
  (wsSome r1).bind fun r2 =>
  signalTail r2

/-- `(\w+)\s*\(` — the trailing part of the instance pattern. -/
def instCoreTail (s : List Char) : Option (List Char) :=
  (wordSome s).bind fun wr =>
  match wsMany wr.2 with
  | '(' :: r3 => some r3
  | _ => none

/-- `(?:\#\(.*?\)\s+)?(\w+)\s*\(` — parameter-override group of the instance
pattern.  When the group is skipped the first character is `#`, so `(\w+)`
cannot match and the whole pattern fails. -/
def instTail (s : List Char) : Option (List Char) :=
  match s with
  | '#' :: '(' :: rest =>
    match firstTail (fun c => (wsSome c).bind instCoreTail) (afterCloseCandidates ')' rest) with
    | some res => some res
    | none => instCoreTail s
  | _ => instCoreTail s

/-- `^\s*(\w+)\s+(?:\#\(.*?\)\s+)?(\w+)\s*\(` — the symbol name is the FIRST
capture group (`match[1]`, the instantiated module type). -/
def matchInstanceKw (s : List Char) : Option (String × List Char) :=
  (wordSome (wsMany s)).bind fun wr =>
  (wsSome wr.2).bind fun r2 =>
  (instTail r2).map fun r3 => (wr.1, r3)

/-- `regex.lastIndex`-style scan: position `p` is a line start. -/
def isLineStart (content : List Char) (p : Nat) : Bool :=
  p = 0 || content.getD (p - 1) ' ' = '\n'

/-- First match of an anchored pattern at a line-start position `≥ start`;
returns (captured name, match index, end index). -/
def matchAtFirst (m : List Char → Option (String × List Char))
    (content : List Char) (start : Nat) : Option (String × Nat × Nat) :=
  ((List.range (content.length + 1)).filterMap (fun p =>
    if start ≤ p ∧ isLineStart content p then
      match m (content.drop p) with
      | some (w, rest) => some (w, p, p + (content.length - p - rest.length))
      | none => none
    else none)).head?

/-- The `while ((match = regex.exec(content)) !== null)` loop.  Every pattern
consumes at least one character, so `content.length + 1` fuel always suffices
and `max e (p + 1)` equals the real `lastIndex` `e`. -/
def scanMatches (m : List Char → Option (String × List Char))
    (content : List Char) : Nat → Nat → List (String × Nat)
  | 0, _ => []
  | fuel + 1, start =>
    match matchAtFirst m content start with
    | none => []
    | some (w, p, e) => (w, p) :: scanMatches m content fuel (max e (p + 1))

/-- `content.substring(0, match.index).split("\n").length - 1`: the number of
newlines before position `p`. -/
def lineNumberOf (content : List Char) (p : Nat) : Nat :=
  ((content.take p).filter (fun c => c = '\n')).length

/-- The six `indexSingleFile` patterns, in source order. -/
def patternList : List ((List Char → Option (String × List Char)) × String) :=
  [(matchModuleKw, "module"), (matchFunctionKw, "function"), (matchTaskKw, "task"),
   (matchPortKw, "port"), (matchSignalKw, "signal"), (matchInstanceKw, "instance")]

/-- The `Symbol` record built for one regex match inside `indexSingleFile`. -/
def mkExtractedSymbol (filePath name kind : String) (line : Nat) : Symbol :=
  { id := generateSymbolId filePath name line
    repo := dirname filePath
    path := filePath
    name := name
    kind := kind
    startLine := line
    endLine := line
    nodeType := kind
    hash := computeHash (filePath ++ ":" ++ name ++ ":" ++ natToString line) }

/-- All symbols extracted by `indexSingleFile` from `content`, in insertion
order (all matches of the first pattern, then the second, …). -/
def extractSymbols (filePath content : String) : List Symbol :=
  patternList.flatMap (fun pk =>
    (scanMatches pk.1 content.data (content.data.length + 1) 0).map
      (fun nm => mkExtractedSymbol filePath nm.1 pk.2 (lineNumberOf content.data nm.2)))

/-! ### SymbolIndexer state and operations -/

structure IndexerState where
  symbols : JsMap Symbol
  nameIndex : JsMap (List String)
  pathIndex : JsMap (List String)
deriving DecidableEq, Repr

def emptyIndexer : IndexerState := ⟨[], [], []⟩

/-- `SymbolIndexer.addSymbol`. -/
def addSymbol (st : IndexerState) (sym : Symbol) : IndexerState :=
  { symbols := mapSet st.symbols sym.id sym
    nameIndex := mapSet st.nameIndex sym.name
      (setAdd ((mapGet st.nameIndex sym.name).getD []) sym.id)
    pathIndex := mapSet st.pathIndex sym.path
      (setAdd ((mapGet st.pathIndex sym.path).getD []) sym.id) }

/-- `SymbolIndexer.removeSymbol`. -/
def removeSymbol (st : IndexerState) (symbolId : String) : IndexerState :=
  match mapGet st.symbols symbolId with
  | none => st
  | some sym =>
    { symbols := mapDelete st.symbols symbolId
      nameIndex :=
        match mapGet st.nameIndex sym.name with
        | none => st.nameIndex
        | some nameSet =>
          let ns := setDelete nameSet symbolId
          if ns.isEmpty then mapDelete st.nameIndex sym.name
          else mapSet st.nameIndex sym.name ns
      pathIndex :=
        match mapGet st.pathIndex sym.path with
        | none => st.pathIndex
        | some pathSet =>
          let ps := setDelete pathSet symbolId
          if ps.isEmpty then mapDelete st.pathIndex sym.path
          else mapSet st.pathIndex sym.path ps }

/-- `SymbolIndexer.indexSingleFile` (given file content). -/
def indexSingleFile (st : IndexerState) (filePath content : String) : IndexerState :=
  (extractSymbols filePath content).foldl addSymbol st

/-- Effective file content: `content || fs.readFileSync(filePath)` — a missing
or empty (falsy) `content` argument makes the code read the disk. -/
def effectiveContent (content : Option String) (diskContent : String) : String :=
  match content with
  | some c => if c = "" then diskContent else c
  | none => diskContent

/-- `SymbolIndexer.updateFile`: remove every symbol id indexed under
`filePath`, then re-extract and re-insert. -/
def updateFile (st : IndexerState) (filePath : String) (content : Option String)
    (diskContent : String) : IndexerState :=
  let existingIds := (mapGet st.pathIndex filePath).getD []
  let st1 := existingIds.foldl removeSymbol st
  indexSingleFile st1 filePath (effectiveContent content diskContent)

/-- `SymbolIndexer.getSymbolsInFile`. -/
def getSymbolsInFile (st : IndexerState) (filePath : String) : List Symbol :=
  ((mapGet st.pathIndex filePath).getD []).filterMap (fun i => mapGet st.symbols i)

/-- `SymbolIndexer.listSymbols` (JS `Map.values()` order). -/
def listSymbols (st : IndexerState) : List Symbol := st.symbols.map (fun e => e.2)

/-- The symbols recorded in the table under path `p` (the table entries whose
`path` field is `p`). -/
def symbolsForPath (st : IndexerState) (p : String) : List Symbol :=
  (st.symbols.filter (fun e => decide (e.2.path = p))).map (fun e => e.2)

/-! ### SearchEngine (src/cli-client.js): Levenshtein distance and scoring -/

/-- Reference definition: the textbook Levenshtein (edit) distance. -/
def editDist : List Char → List Char → Nat
  | [], ys => ys.length
  | x :: xs, [] => (x :: xs).length
  | x :: xs, y :: ys =>
    min (editDist xs (y :: ys) + 1)
      (min (editDist (x :: xs) ys + 1)
        (editDist xs ys + (if x = y then 0 else 1)))
termination_by xs ys => xs.length + ys.length

/-- One inner-loop pass of `SearchEngine.levenshteinDistance` over the tail of
the dp row: `dp[j] = min(dp[j] + 1, dp[j - 1] + 1, prev + cost)`. -/
def levRowAux (c : Char) : List Char → List Nat → Nat → Nat → List Nat
  | b :: bs, old :: olds, diag, left =>
    let cost := if c = b then 0 else 1
    let v := min (old + 1) (min (left + 1) (diag + cost))
    v :: levRowAux c bs olds old v
  | _, _, _, _ => []

/-- One outer-loop pass (`dp[0] = i; for j …`). -/
def levRow (c : Char) (bs : List Char) (row : List Nat) : List Nat :=
  match row with
  | r0 :: rest => (r0 + 1) :: levRowAux c bs rest r0 (r0 + 1)
  | [] => []

/-- `SearchEngine.levenshteinDistance`: the dp-array implementation, with the
JS falsy guards for empty strings. -/
def levenshteinDistance (a b : List Char) : Nat :=
  if a.isEmpty then b.length
  else if b.isEmpty then a.length
  else
    let dp0 := List.range (b.length + 1)
    let dpFinal := a.foldl (fun row c => levRow c b row) dp0
    dpFinal.getD b.length 0

/-- JS `toLowerCase` (ASCII). -/
def jsToLower (s : List Char) : List Char := s.map Char.toLower

/-- JS `String.prototype.includes` (substring test). -/
def containsSub : List Char → List Char → Bool
  | s, p =>
    if p.isPrefixOf s then true
    else match s with
      | [] => false
      | _ :: s' => containsSub s' p

/-- `SearchEngine.calculateSymbolScore`.  `Math.floor(name.length * 0.3)`
equals `name.length * 3 / 10` in exact arithmetic (the double rounding of
`len * 0.3` never crosses an integer boundary). -/
def calculateSymbolScore (sym : Symbol) (query : String) : Nat :=
  let name := jsToLower sym.name.data
  let q := jsToLower query.data
  if name = q then 100
  else if q.isPrefixOf name then 90
  else if containsSub name q then 70
  else
    let dist := levenshteinDistance name q
    let threshold := max 1 (name.length * 3 / 10)
    if dist ≤ threshold then max 1 (60 - dist * 5) else 0

/-! ### SearchEngine: results, sorting and search -/

inductive ResultType
  | symbol
  | text
deriving DecidableEq, Repr

structure SearchResult where
  type : ResultType
  file : String
  line : Nat
  column : Option Nat := none
  snippet : String
  symbol : Option Symbol := none
  score : Option Nat := none
deriving DecidableEq, Repr

/-- The file-then-line comparison at the end of the comparator.
`localeCompare` is modelled as the sign of the lexicographic `String`
comparison. -/
def fileLineCmp (a b : SearchResult) : Int :=
  let fc : Int := if a.file = b.file then 0 else if a.file < b.file then -1 else 1
  if fc ≠ 0 then fc else (a.line : Int) - (b.line : Int)

/-- The comparator of `SearchEngine.sortResults`. -/
def compareResults (a b : SearchResult) : Int :=
  if a.type = ResultType.symbol ∧ b.type = ResultType.text then -1
  else if a.type = ResultType.text ∧ b.type = ResultType.symbol then 1
  else
    match a.score, b.score with
    | some sa, some sb => (sb : Int) - (sa : Int)
    | _, _ => fileLineCmp a b

/-- Stable insertion with respect to a JS comparator: a new element goes after
every existing element that does not compare greater. -/
def insertSorted (x : SearchResult) : List SearchResult → List SearchResult
  | [] => [x]
  | y :: ys => if compareResults y x ≤ 0 then y :: insertSorted x ys else x :: y :: ys

/-- `SearchEngine.sortResults`: `Array.prototype.sort` is stable, and the
comparator is consistent on the results the engine produces, so a stable
insertion sort models it exactly. -/
def sortResults (results : List SearchResult) : List SearchResult :=
  results.foldl (fun acc r => insertSorted r acc) []

/-- `SearchEngine.searchSymbols`: score every indexed symbol, keep positives. -/
def searchSymbols (st : IndexerState) (query : String) : List SearchResult :=
  (listSymbols st).filterMap (fun sym =>
    let score := calculateSymbolScore sym query
    if 0 < score then
      some { type := ResultType.symbol
             file := sym.path
             line := sym.startLine
             snippet := sym.kind ++ " " ++ sym.name
             symbol := some sym
             score := some score }
    else none)

/-- `SearchEngine.search`.  The text-search results produced by
ripgrep/grep on the repository are abstracted as the input `textResults`
(they are outside-world data; each has `type: "text"` and no score). -/
def searchImpl (st : IndexerState) (textResults : List SearchResult)
    (query : String) (ty : Option String) : List SearchResult :=
  let results := if ty = none ∨ ty = some "symbol" then searchSymbols st query else []
  let results := if results.isEmpty ∨ ty = some "text" then results ++ textResults
                 else results
  sortResults results

/-! ### HttpServer.handleSearch (src/unnamed/part_004) -/

inductive ApiResponse
  | ok (results : List SearchResult)
  | err (msg : String)
deriving DecidableEq, Repr

/-- `HttpServer.handleSearch`: an empty (falsy) query string is rejected
before any search work is started. -/
def handleSearch (st : IndexerState) (textResults : List SearchResult)
    (query : String) (ty : Option String) : ApiResponse :=
  if query = "" then ApiResponse.err "query parameter is required"
  else ApiResponse.ok (searchImpl st textResults query ty)

/-! ### GraphBuilder (src/unnamed/part_003): data model -/

structure PortInfo where
  name : String
  direction : String
  portType : String
deriving DecidableEq, Repr

structure ModuleInfo where
  name : String
  filePath : String
  startLine : Nat
  endLine : Nat
  ports : List PortInfo
deriving DecidableEq, Repr

/-- The TS union type `"input" | "output" | "inout"`. -/
inductive Direction
  | input
  | output
  | inout
deriving DecidableEq, Repr

structure ConnectionInfo where
  portName : String
  signalName : String
  direction : Direction
deriving DecidableEq, Repr

structure InstanceInfo where
  name : String
  moduleType : String
  connections : List ConnectionInfo
  file : String
  line : Nat
deriving DecidableEq, Repr

structure FlowEnd where
  module : String
  port : String
deriving DecidableEq, Repr

/-- `SignalFlow`; the TS fields `from`/`to` are Lean keywords and are named
`flowFrom`/`flowTo` here. -/
structure SignalFlow where
  flowFrom : FlowEnd
  flowTo : FlowEnd
  signal : String
  path : List String
deriving DecidableEq, Repr

structure ModuleNode where
  id : String
  name : String
  file : String
  ports : List PortInfo
  parameters : List (String × String)
  instances : List InstanceInfo
deriving DecidableEq, Repr

structure ModuleGraph where
  nodes : JsMap ModuleNode
  edges : JsMap (List String)
  reverseEdges : JsMap (List String)
  signalFlows : List SignalFlow
deriving DecidableEq, Repr

def emptyGraph : ModuleGraph := ⟨[], [], [], []⟩

/-- `GraphBuilder.addEdge`: record the forward edge and the matching reverse
edge. -/
def addEdge (g : ModuleGraph) (eFrom eTo : String) : ModuleGraph :=
  { g with
    edges := mapSet g.edges eFrom (setAdd ((mapGet g.edges eFrom).getD []) eTo)
    reverseEdges :=
      mapSet g.reverseEdges eTo (setAdd ((mapGet g.reverseEdges eTo).getD []) eFrom) }

/-- `GraphBuilder.findModuleByFile`. -/
def findModuleByFile (file : String) (modules : List ModuleInfo) : Option ModuleInfo :=
  modules.find? (fun m => m.filePath = file)

/-- `parentNode.instances.push(instance)` inside `GraphBuilder.buildGraph`:
the parent node's instance list grows; the map binding keeps its position. -/
def attachInstance (g : ModuleGraph) (parentName : String) (node : ModuleNode)
    (inst : InstanceInfo) : ModuleGraph :=
  let node2 := { node with instances := node.instances ++ [inst] }
  { g with nodes := mapSet g.nodes parentName node2 }

/-- One step of the instance loop of `GraphBuilder.buildGraph`. -/
def addInstanceStep (modules : List ModuleInfo) (g : ModuleGraph)
    (inst : InstanceInfo) : ModuleGraph :=
  match findModuleByFile inst.file modules with
  | none => g
  | some parentModule =>
    let g1 :=
      match mapGet g.nodes parentModule.name with
      | some node => attachInstance g parentModule.name node inst
      | none => g
    addEdge g1 parentModule.name inst.moduleType

/-- `GraphBuilder.traceSignalFlow`. -/
def traceSignalFlow (g : ModuleGraph) (parentModule : String)
    (inst : InstanceInfo) (conn : ConnectionInfo) : Option SignalFlow :=
  match mapGet g.nodes inst.moduleType with
  | none => none
  | some childModule =>
    match childModule.ports.find? (fun p => p.name = conn.portName) with
    | none => none
    | some _ =>
      some
        { flowFrom :=
            if conn.direction = Direction.input
            then { module := parentModule, port := conn.signalName }
            else { module := inst.moduleType, port := conn.portName }
          flowTo :=
            if conn.direction = Direction.input
            then { module := inst.moduleType, port := conn.portName }
            else { module := parentModule, port := conn.signalName }
          signal := conn.signalName
          path := [parentModule, inst.moduleType] }

/-- `GraphBuilder.buildSignalFlows`: push the trace of every connection of
every instance of every node. -/
def buildSignalFlows (g : ModuleGraph) : ModuleGraph :=
  { g with
    signalFlows := g.signalFlows ++
      g.nodes.flatMap (fun e =>
        e.2.instances.flatMap (fun inst =>
          inst.connections.filterMap (fun conn => traceSignalFlow g e.1 inst conn))) }

/-- One step of the module loop of `GraphBuilder.buildGraph`. -/
def addNodeStep (g : ModuleGraph) (m : ModuleInfo) : ModuleGraph :=
  let node : ModuleNode :=
    { id := m.name, name := m.name, file := m.filePath, ports := m.ports
      parameters := [], instances := [] }
  { g with nodes := mapSet g.nodes m.name node }

/-- `GraphBuilder.buildGraph`. -/
def buildGraph (modules : List ModuleInfo) (insts : List InstanceInfo) : ModuleGraph :=
  let g1 := modules.foldl addNodeStep emptyGraph
  let g2 := insts.foldl (addInstanceStep modules) g1
  buildSignalFlows g2

/-- `GraphBuilder.getTopLevelModules`. -/
def getTopLevelModules (g : ModuleGraph) : List String :=
  g.nodes.filterMap (fun e =>
    if ((mapGet g.reverseEdges e.1).getD []).isEmpty then some e.1 else none)

structure ImpactResult where
  sources : List FlowEnd
  sinks : List FlowEnd
  affectedModules : List String
deriving DecidableEq, Repr

/-- `GraphBuilder.getSignalImpactAnalysis`: a linear scan that pushes the
endpoints of each matching flow (`sources`/`sinks` are plain arrays; only
`affectedModules` is a `Set`). -/
def impactStep (signalName : String)
    (acc : List FlowEnd × List FlowEnd × List String) (flow : SignalFlow) :
    List FlowEnd × List FlowEnd × List String :=
  if flow.signal = signalName then
    (acc.1 ++ [flow.flowFrom], acc.2.1 ++ [flow.flowTo],
      setAdd (setAdd acc.2.2 flow.flowFrom.module) flow.flowTo.module)
  else acc

def getSignalImpactAnalysis (g : ModuleGraph) (signalName : String) : ImpactResult :=
  let r := g.signalFlows.foldl (impactStep signalName) ([], [], [])
  { sources := r.1, sinks := r.2.1, affectedModules := r.2.2 }

/-- The dfs of `GraphBuilder.getCriticalPath`, with explicit fuel.  The JS
`visited` set is added to before the child loop and deleted from after it, so
it always equals the current path; a recursive call is cut off when the module
is already on the path.  Fuel only bounds the recursion depth; the theorems
below show that `(universe size + 1)` fuel always suffices. -/
def dfsCritical (g : ModuleGraph) : Nat → List String → String → List String →
    Option (List String)
  | 0, _, _, _ => none
  | fuel + 1, path, m, longest =>
    if m ∈ path then some longest
    else
      let path2 := path ++ [m]
      let children := (mapGet g.edges m).getD []
      if children.isEmpty then
        some (if longest.length < path2.length then path2 else longest)
      else
        children.foldl (fun acc c => acc.bind (fun l => dfsCritical g fuel path2 c l))
          (some longest)

/-- `GraphBuilder.getCriticalPath` with explicit fuel. -/
def getCriticalPathFuel (g : ModuleGraph) (fuel : Nat) : Option (List String) :=
  (getTopLevelModules g).foldl
    (fun acc m => acc.bind (fun l => dfsCritical g fuel [] m l)) (some [])

/-- The dfs of `GraphBuilder.calculateHierarchyDepth`, with explicit fuel.
Its `visited` set persists across sibling calls and is threaded through. -/
def dfsDepth (g : ModuleGraph) : Nat → List String → String → Option (Nat × List String)
  | 0, _, _ => none
  | fuel + 1, visited, m =>
    if m ∈ visited then some (0, visited)
    else
      let vis2 := visited ++ [m]
      let children := (mapGet g.edges m).getD []
      if children.isEmpty then some (1, vis2)
      else
        (children.foldl
          (fun acc c => acc.bind (fun dv =>
            (dfsDepth g fuel dv.2 c).map (fun r => (max dv.1 r.1, r.2))))
          (some (0, vis2))).map (fun dv => (dv.1 + 1, dv.2))

/-- `GraphBuilder.calculateHierarchyDepth` with explicit fuel. -/
def calculateHierarchyDepthFuel (g : ModuleGraph) (moduleName : String)
    (fuel : Nat) : Option Nat :=
  (dfsDepth g fuel [] moduleName).map (fun dv => dv.1)

structure Complexity where
  instanceCount : Nat
  portCount : Nat
  connectionCount : Nat
  hierarchyDepth : Nat
deriving DecidableEq, Repr

/-- `GraphBuilder.getModuleComplexity` with explicit fuel. -/
def getModuleComplexityFuel (g : ModuleGraph) (moduleName : String)
    (fuel : Nat) : Option Complexity :=
  match mapGet g.nodes moduleName with
  | none => some ⟨0, 0, 0, 0⟩
  | some node =>
    (calculateHierarchyDepthFuel g moduleName fuel).map (fun d =>
      { instanceCount := node.instances.length
        portCount := node.ports.length
        connectionCount := node.instances.foldl (fun s i => s + i.connections.length) 0
        hierarchyDepth := d })

/-- Every module name a graph walk can ever reach: node keys, edge keys and
edge targets. -/
def graphUniverse (g : ModuleGraph) : List String :=
  (g.nodes.map Prod.fst ++ g.edges.map Prod.fst ++ g.edges.flatMap Prod.snd).dedup

/-- Sufficient fuel for `getCriticalPath`. -/
def criticalPathBound (g : ModuleGraph) : Nat := (graphUniverse g).length + 1

/-- Sufficient fuel for `calculateHierarchyDepth moduleName` (the dfs only
runs when `moduleName` is a node of the graph, so the same universe bounds
it). -/
def depthBound (g : ModuleGraph) (moduleName : String) : Nat :=
  (graphUniverse g).length + 1

/-! ## Claim C9: empty query is rejected before any search work -/

/-- C9: calling the exposed search operation (`HttpServer.handleSearch`) with
an empty query string is rejected immediately with the validation error
`"query parameter is required"`, and no partial work is performed: the result
is a constant, independent of the symbol index and of the repository text, so
no symbol scoring pass and no text search is run. -/
theorem handleSearch_empty_query (st : IndexerState)
    (textResults : List SearchResult) (ty : Option String) :
    handleSearch st textResults "" ty = ApiResponse.err "query parameter is required" :=
  rfl

/-! ## Claim C3: forward / reverse edge symmetry -/

theorem mapGet_mapSet {α : Type} (m : JsMap α) (k j : String) (v : α) :
    mapGet (mapSet m k v) j = if j = k then some v else mapGet m j := by
  by_cases h : j = k
  · subst h; simp [mapGet_mapSet_self]
  · simp [h, mapGet_mapSet_ne _ _ _ _ h]

/-- The symmetry invariant of the two edge maps. -/
def EdgeSym (g : ModuleGraph) : Prop :=
  ∀ a b : String,
    b ∈ (mapGet g.edges a).getD [] ↔ a ∈ (mapGet g.reverseEdges b).getD []

theorem edgeSym_empty : EdgeSym emptyGraph := by
  intro a b
  simp [emptyGraph, mapGet]

theorem edgeSym_addEdge {g : ModuleGraph} (h : EdgeSym g) (f t : String) :
    EdgeSym (addEdge g f t) := by
  intro a b
  show b ∈ (mapGet (mapSet g.edges f _) a).getD [] ↔
    a ∈ (mapGet (mapSet g.reverseEdges t _) b).getD []
  rw [mapGet_mapSet, mapGet_mapSet]
  by_cases haf : a = f
  · subst haf
    by_cases hbt : b = t
    · subst hbt
      simp [mem_setAdd_iff]
    · simp [hbt, mem_setAdd_iff, h a b]
  · by_cases hbt : b = t
    · subst hbt
      simp [haf, mem_setAdd_iff, h a b]
    · simp only [if_neg haf, if_neg hbt]
      exact h a b

theorem edgeSym_addInstanceStep (ms : List ModuleInfo) {g : ModuleGraph}
    (h : EdgeSym g) (inst : InstanceInfo) : EdgeSym (addInstanceStep ms g inst) := by
  unfold addInstanceStep
  cases hf : findModuleByFile inst.file ms with
  | none => exact h
  | some pm =>
    show EdgeSym (addEdge
      (match mapGet g.nodes pm.name with
       | some node => attachInstance g pm.name node inst
       | none => g) pm.name inst.moduleType)
    cases hn : mapGet g.nodes pm.name with
    | none => exact edgeSym_addEdge h pm.name inst.moduleType
    | some node =>
      have h1 : EdgeSym (attachInstance g pm.name node inst) := h
      exact edgeSym_addEdge h1 pm.name inst.moduleType

theorem edgeSym_instanceFold (ms : List ModuleInfo) (insts : List InstanceInfo)
    {g : ModuleGraph} (h : EdgeSym g) :
    EdgeSym (insts.foldl (addInstanceStep ms) g) := by
  induction insts generalizing g with
  | nil => exact h
  | cons i rest ih =>
    exact ih (edgeSym_addInstanceStep ms h i)

theorem edgeSym_nodeFold (ms : List ModuleInfo) {g : ModuleGraph} (h : EdgeSym g) :
    EdgeSym (ms.foldl addNodeStep g) := by
  induction ms generalizing g with
  | nil => exact h
  | cons m rest ih =>
    exact ih (fun a b => h a b)

/-- C3: every `ModuleGraph` produced by `buildGraph` has symmetric edge maps:
`B` is in the forward-edge set of `A` iff `A` is in the reverse-edge set of
`B`. -/
theorem buildGraph_edge_symmetry (ms : List ModuleInfo) (insts : List InstanceInfo)
    (a b : String) :
    b ∈ (mapGet (buildGraph ms insts).edges a).getD [] ↔
    a ∈ (mapGet (buildGraph ms insts).reverseEdges b).getD [] := by
  have h : EdgeSym (insts.foldl (addInstanceStep ms) (ms.foldl addNodeStep emptyGraph)) :=
    edgeSym_instanceFold ms insts (edgeSym_nodeFold ms edgeSym_empty)
  exact h a b

/-! ## Claim C2: signal-flow direction -/

/-- `buildSignalFlows` records the trace of every (node, instance, connection)
triple that resolves. -/
theorem mem_signalFlows_buildSignalFlows {g : ModuleGraph} {parent : String}
    {node : ModuleNode} {inst : InstanceInfo} {conn : ConnectionInfo}
    {flow : SignalFlow}
    (hmem : (parent, node) ∈ g.nodes) (hinst : inst ∈ node.instances)
    (hconn : conn ∈ inst.connections)
    (htrace : traceSignalFlow g parent inst conn = some flow) :
    flow ∈ (buildSignalFlows g).signalFlows := by
  show flow ∈ g.signalFlows ++ g.nodes.flatMap (fun e =>
    e.2.instances.flatMap (fun i =>
      i.connections.filterMap (fun c => traceSignalFlow g e.1 i c)))
  rw [List.mem_append]
  right
  exact List.mem_flatMap.mpr ⟨(parent, node), hmem,
    List.mem_flatMap.mpr ⟨inst, hinst,
      List.mem_filterMap.mpr ⟨conn, hconn, htrace⟩⟩⟩

/-- C2: for a graph built by `buildGraph`, a connection of an instance hanging
off a parent node resolves as follows: if the instantiated child module is not
a node, no flow is produced; if it is, and the connection names a declared
port of the child, then a child-side `input` connection flows from
`{parent, signal}` to `{child type, port}` and an `output` connection flows
from `{child type, port}` to `{parent, signal}`, always recording the signal
name and the path `[parent, child type]`; every such resolved flow is
recorded in the graph's signal-flow list. -/
theorem traceSignalFlow_spec (ms : List ModuleInfo) (insts : List InstanceInfo)
    (parent : String) (node : ModuleNode) (inst : InstanceInfo)
    (conn : ConnectionInfo)
    (hnode : mapGet (buildGraph ms insts).nodes parent = some node)
    (hinst : inst ∈ node.instances) (hconn : conn ∈ inst.connections) :
    (mapGet (buildGraph ms insts).nodes inst.moduleType = none →
      traceSignalFlow (buildGraph ms insts) parent inst conn = none) ∧
    (∀ child : ModuleNode, ∀ port : PortInfo,
      mapGet (buildGraph ms insts).nodes inst.moduleType = some child →
      child.ports.find? (fun p => p.name = conn.portName) = some port →
      (conn.direction = Direction.input →
        traceSignalFlow (buildGraph ms insts) parent inst conn =
          some { flowFrom := { module := parent, port := conn.signalName }
                 flowTo := { module := inst.moduleType, port := conn.portName }
                 signal := conn.signalName
                 path := [parent, inst.moduleType] }) ∧
      (conn.direction = Direction.output →
        traceSignalFlow (buildGraph ms insts) parent inst conn =
          some { flowFrom := { module := inst.moduleType, port := conn.portName }
                 flowTo := { module := parent, port := conn.signalName }
                 signal := conn.signalName
                 path := [parent, inst.moduleType] }) ∧
      (∀ flow : SignalFlow,
        traceSignalFlow (buildGraph ms insts) parent inst conn = some flow →
        flow ∈ (buildGraph ms insts).signalFlows)) := by
  constructor
  · intro hnone
    simp [traceSignalFlow, hnone]
  · intro child port hchild hport
    refine ⟨?_, ?_, ?_⟩
    · intro hdir
      simp [traceSignalFlow, hchild, hport, hdir]
    · intro hdir
      simp [traceSignalFlow, hchild, hport, hdir]
    · intro flow htrace
      have hmem : (parent, node) ∈
          (insts.foldl (addInstanceStep ms) (ms.foldl addNodeStep emptyGraph)).nodes :=
        mem_of_mapGet_eq_some hnode
      exact mem_signalFlows_buildSignalFlows hmem hinst hconn htrace

def c2conn : ConnectionInfo := ⟨"din", "s", Direction.input⟩

def c2inst : InstanceInfo := ⟨"u1", "C", [c2conn], "/p.v", 0⟩

def c2mods : List ModuleInfo :=
  [⟨"P", "/p.v", 0, 0, []⟩, ⟨"C", "/c.v", 0, 0, [⟨"din", "input", "wire"⟩]⟩]

def c2graph : ModuleGraph := buildGraph c2mods [c2inst]

def c2pnode : ModuleNode := ⟨"P", "P", "/p.v", [], [], [c2inst]⟩

def c2cnode : ModuleNode := ⟨"C", "C", "/c.v", [⟨"din", "input", "wire"⟩], [], []⟩

/-- Witness for C2: on a concrete two-module design, the `input`-direction
connection of `u1 : C` inside `P` yields the flow `P.s → C.din`, and that flow
is recorded in the built graph. -/
theorem traceSignalFlow_spec_witness :
    traceSignalFlow c2graph "P" c2inst c2conn =
      some ⟨⟨"P", "s"⟩, ⟨"C", "din"⟩, "s", ["P", "C"]⟩ ∧
    (⟨⟨"P", "s"⟩, ⟨"C", "din"⟩, "s", ["P", "C"]⟩ : SignalFlow) ∈ c2graph.signalFlows := by
  have h := traceSignalFlow_spec c2mods [c2inst] "P" c2pnode c2inst c2conn
    (by decide) (by decide) (by decide)
  have h3 := h.2 c2cnode ⟨"din", "input", "wire"⟩ (by decide) (by decide)
  have he := h3.1 rfl
  exact ⟨he, h3.2.2 _ he⟩

/-! ## Claim C8: signal impact analysis -/

theorem impactFold (s : String) (l : List SignalFlow)
    (acc : List FlowEnd × List FlowEnd × List String) :
    (l.foldl (impactStep s) acc).1 =
      acc.1 ++ (l.filter (fun f => decide (f.signal = s))).map SignalFlow.flowFrom ∧
    (l.foldl (impactStep s) acc).2.1 =
      acc.2.1 ++ (l.filter (fun f => decide (f.signal = s))).map SignalFlow.flowTo ∧
    (∀ m, m ∈ (l.foldl (impactStep s) acc).2.2 ↔ m ∈ acc.2.2 ∨
      ∃ f ∈ l.filter (fun f => decide (f.signal = s)),
        f.flowFrom.module = m ∨ f.flowTo.module = m) := by
  induction l generalizing acc with
  | nil => simp
  | cons f rest ih =>
    by_cases hf : f.signal = s
    · have hstep : impactStep s acc f =
        (acc.1 ++ [f.flowFrom], acc.2.1 ++ [f.flowTo],
          setAdd (setAdd acc.2.2 f.flowFrom.module) f.flowTo.module) := by
        simp [impactStep, hf]
      obtain ⟨ih1, ih2, ih3⟩ := ih (impactStep s acc f)
      refine ⟨?_, ?_, ?_⟩
      · rw [List.foldl_cons, ih1, hstep]
        simp [hf]
      · rw [List.foldl_cons, ih2, hstep]
        simp [hf]
      · intro m
        rw [List.foldl_cons, ih3 m, hstep]
        have hfc : (f :: rest).filter (fun f => decide (f.signal = s)) =
            f :: rest.filter (fun f => decide (f.signal = s)) := by
          simp [List.filter_cons, hf]
        rw [hfc]
        simp only [mem_setAdd_iff]
        constructor
        · rintro (((hm | hm) | hm) | ⟨f2, hf2, hp⟩)
          · exact Or.inl hm
          · exact Or.inr ⟨f, List.mem_cons_self _ _, Or.inl hm.symm⟩
          · exact Or.inr ⟨f, List.mem_cons_self _ _, Or.inr hm.symm⟩
          · exact Or.inr ⟨f2, List.mem_cons_of_mem _ hf2, hp⟩
        · rintro (hm | ⟨f2, hf2, hp⟩)
          · exact Or.inl (Or.inl (Or.inl hm))
          · rcases List.mem_cons.mp hf2 with h2 | h2
            · subst h2
              rcases hp with hp | hp
              · exact Or.inl (Or.inl (Or.inr hp.symm))
              · exact Or.inl (Or.inr hp.symm)
            · exact Or.inr ⟨f2, h2, hp⟩
    · have hstep : impactStep s acc f = acc := by simp [impactStep, hf]
      obtain ⟨ih1, ih2, ih3⟩ := ih (impactStep s acc f)
      refine ⟨?_, ?_, ?_⟩
      · rw [List.foldl_cons, ih1, hstep]; simp [hf]
      · rw [List.foldl_cons, ih2, hstep]; simp [hf]
      · intro m
        rw [List.foldl_cons, ih3 m, hstep]
        simp [hf]

/-- C8 (amended): `getSignalImpactAnalysis s` returns as `sources` the `from`
endpoints and as `sinks` the `to` endpoints of exactly the signal-flow edges
whose signal equals `s`, in order and WITH duplicates (the code does not
deduplicate them); `affectedModules` is exactly the distinct set of modules
occurring in those edges.  In particular an emitting module appears among the
sources, a receiving module among the sinks, and both in `affectedModules`. -/
theorem getSignalImpactAnalysis_spec (g : ModuleGraph) (s : String) :
    (getSignalImpactAnalysis g s).sources =
      (g.signalFlows.filter (fun f => decide (f.signal = s))).map SignalFlow.flowFrom ∧
    (getSignalImpactAnalysis g s).sinks =
      (g.signalFlows.filter (fun f => decide (f.signal = s))).map SignalFlow.flowTo ∧
    (∀ m, m ∈ (getSignalImpactAnalysis g s).affectedModules ↔
      ∃ f ∈ g.signalFlows.filter (fun f => decide (f.signal = s)),
        f.flowFrom.module = m ∨ f.flowTo.module = m) := by
  have h := impactFold s g.signalFlows ([], [], [])
  unfold getSignalImpactAnalysis
  simpa using h

def c8mods : List ModuleInfo :=
  [⟨"P", "/p.v", 0, 0, []⟩, ⟨"C", "/c.v", 0, 0, [⟨"din", "input", "wire"⟩]⟩]

def c8insts : List InstanceInfo :=
  [⟨"u1", "C", [⟨"din", "s", Direction.input⟩], "/p.v", 0⟩,
   ⟨"u2", "C", [⟨"din", "s", Direction.input⟩], "/p.v", 0⟩]

/-- C8 counterexample: with two identical instances `u1 u2 : C` inside `P`
both connecting signal `s` to the input port `din`, the two matching flows
have the same `from` endpoint, and `getSignalImpactAnalysis` returns it twice:
`sources` is NOT the list of distinct `from` pairs. -/
theorem getSignalImpactAnalysis_not_distinct :
    (getSignalImpactAnalysis (buildGraph c8mods c8insts) "s").sources =
      [⟨"P", "s"⟩, ⟨"P", "s"⟩] ∧
    ¬ (getSignalImpactAnalysis (buildGraph c8mods c8insts) "s").sources.Nodup :=
  ⟨by decide, by decide⟩

/-! ## Claim C10: getSymbolsInFile and basename id collisions -/

/-- C10 (code bug): symbol ids are keyed on `path.basename(filePath)`, so two
files with the same basename holding an equal-named symbol at the same line
collide.  After indexing `/a/top.v` and then `/b/top.v` (both containing
`module m`), `getSymbolsInFile "/a/top.v"` returns the one surviving symbol,
whose `path` field is `/b/top.v` — a symbol reported under a different file
than the one it belongs to, violating the claimed invariant. -/
theorem getSymbolsInFile_basename_collision :
    (getSymbolsInFile
      (updateFile (updateFile emptyIndexer "/a/top.v" (some "module m") "")
        "/b/top.v" (some "module m") "")
      "/a/top.v").map Symbol.path = ["/b/top.v"] ∧
    ("/b/top.v" : String) ≠ "/a/top.v" :=
  ⟨by decide, by decide⟩

/-! ## Claim C1: the symbol score and the Levenshtein distance

The dp-array loop of `SearchEngine.levenshteinDistance` is proved equal to the
textbook recursive edit distance `editDist`.  The central fact is the
"last-character" (snoc) recurrence for `editDist`, proved by strong induction:
both sides unfold, via the head recurrence, to minima over the same atoms. -/

theorem editDist_nil_left (z : List Char) : editDist [] z = z.length := by
  simp [editDist]

theorem editDist_nil_right (z : List Char) : editDist z [] = z.length := by
  cases z <;> simp [editDist]

theorem minAddDist (a b k : Nat) : (a ⊓ b) + k = (a + k) ⊓ (b + k) :=
  Eq.symm (Nat.add_min_add_right a b k)

theorem editDist_cons_cons (x y : Char) (xs ys : List Char) :
    editDist (x :: xs) (y :: ys) =
      min (editDist xs (y :: ys) + 1)
        (min (editDist (x :: xs) ys + 1)
          (editDist xs ys + (if x = y then 0 else 1))) := by
  simp [editDist]

set_option maxHeartbeats 1000000 in
theorem editDist_snoc_aux (n : Nat) :
    ∀ (u v : List Char), u.length + v.length = n → ∀ (c d : Char),
      editDist (u ++ [c]) (v ++ [d]) =
        min (editDist u (v ++ [d]) + 1)
          (min (editDist (u ++ [c]) v + 1)
            (editDist u v + (if c = d then 0 else 1))) := by
  induction n using Nat.strong_induction_on with
  | _ n ih =>
    intro u v hn c d
    match u, v with
    | [], [] =>
      by_cases hcd : c = d <;> simp [editDist, hcd]
    | [], y :: v' =>
      have h1 := ih (0 + v'.length)
        (by simp only [List.length_nil, List.length_cons] at hn; omega)
        [] v' (by simp) c d
      simp only [List.nil_append] at h1 ⊢
      simp only [List.cons_append]
      rw [editDist_cons_cons c y [] (v' ++ [d]), editDist_cons_cons c y [] v', h1]
      simp only [editDist_nil_left, List.length_cons, List.length_append,
        List.length_nil]
      generalize (if c = y then (0 : Nat) else 1) = cxy
      generalize (if c = d then (0 : Nat) else 1) = ccd
      generalize editDist [c] v' = a1
      clear h1 ih hn
      simp only [minAddDist]
      simp only [le_antisymm_iff, le_min_iff, min_le_iff]
      omega
    | x :: u', [] =>
      have h1 := ih (u'.length + 0)
        (by simp only [List.length_nil, List.length_cons] at hn; omega)
        u' [] (by simp) c d
      simp only [List.nil_append] at h1 ⊢
      simp only [List.cons_append]
      rw [editDist_cons_cons x d (u' ++ [c]) [], editDist_cons_cons x d u' [], h1]
      simp only [editDist_nil_right, List.length_cons, List.length_append,
        List.length_nil]
      generalize (if x = d then (0 : Nat) else 1) = cxd
      generalize (if c = d then (0 : Nat) else 1) = ccd
      generalize editDist u' [d] = a1
      clear h1 ih hn
      simp only [minAddDist]
      simp only [le_antisymm_iff, le_min_iff, min_le_iff]
      omega
    | x :: u', y :: v' =>
      have hA := ih (u'.length + (y :: v').length)
        (by simp only [List.length_cons] at hn ⊢; omega)
        u' (y :: v') rfl c d
      have hB := ih ((x :: u').length + v'.length)
        (by simp only [List.length_cons] at hn ⊢; omega)
        (x :: u') v' rfl c d
      have hC := ih (u'.length + v'.length)
        (by simp only [List.length_cons] at hn; omega)
        u' v' rfl c d
      simp only [List.cons_append] at hA hB hC ⊢
      rw [editDist_cons_cons x y (u' ++ [c]) (v' ++ [d]),
        editDist_cons_cons x y u' (v' ++ [d]),
        editDist_cons_cons x y (u' ++ [c]) v',
        editDist_cons_cons x y u' v',
        hA, hB, hC]
      generalize (if x = y then (0 : Nat) else 1) = cxy
      generalize (if c = d then (0 : Nat) else 1) = ccd
      generalize editDist u' (y :: (v' ++ [d])) = a1
      generalize editDist (u' ++ [c]) (y :: v') = a2
      generalize editDist u' (y :: v') = a3
      generalize editDist (x :: u') (v' ++ [d]) = a4
      generalize editDist (x :: (u' ++ [c])) v' = a5
      generalize editDist (x :: u') v' = a6
      generalize editDist u' (v' ++ [d]) = a7
      generalize editDist (u' ++ [c]) v' = a8
      generalize editDist u' v' = a9
      clear hA hB hC ih hn
      simp only [minAddDist]
      simp only [le_antisymm_iff, le_min_iff, min_le_iff]
      omega

/-- The last-character recurrence of the edit distance. -/
theorem editDist_snoc_snoc (u v : List Char) (c d : Char) :
    editDist (u ++ [c]) (v ++ [d]) =
      min (editDist u (v ++ [d]) + 1)
        (min (editDist (u ++ [c]) v + 1)
          (editDist u v + (if c = d then 0 else 1))) :=
  editDist_snoc_aux (u.length + v.length) u v rfl c d

/-- The tail (indices `1 … b.length`) of the dp row after the characters of
`u` have been processed: distances from `u` to the prefixes of `b` extending
`pre`. -/
def tailSpec (u pre : List Char) : List Char → List Nat
  | [] => []
  | y :: bs => editDist u (pre ++ [y]) :: tailSpec u (pre ++ [y]) bs

/-- The full dp row after processing `u`. -/
def rowSpec (u b : List Char) : List Nat := editDist u [] :: tailSpec u [] b

theorem levRowAux_spec (c : Char) (bs : List Char) : ∀ (pre u : List Char),
    levRowAux c bs (tailSpec u pre bs) (editDist u pre) (editDist (u ++ [c]) pre) =
      tailSpec (u ++ [c]) pre bs := by
  induction bs with
  | nil => intro pre u; rfl
  | cons y bs' ih =>
    intro pre u
    simp only [tailSpec, levRowAux]
    rw [← editDist_snoc_snoc u pre c y]
    rw [ih (pre ++ [y]) u]

theorem levRow_spec (c : Char) (b u : List Char) :
    levRow c b (rowSpec u b) = rowSpec (u ++ [c]) b := by
  show levRow c b (editDist u [] :: tailSpec u [] b) = _
  simp only [levRow]
  have h0 : editDist u [] + 1 = editDist (u ++ [c]) [] := by
    simp [editDist_nil_right]
  rw [h0, levRowAux_spec c b [] u]
  rfl

theorem levFold_spec (b : List Char) (rest : List Char) : ∀ (u : List Char),
    rest.foldl (fun row c => levRow c b row) (rowSpec u b) = rowSpec (u ++ rest) b := by
  induction rest with
  | nil => intro u; simp
  | cons c rest' ih =>
    intro u
    rw [List.foldl_cons, levRow_spec c b u, ih (u ++ [c])]
    simp

theorem tailSpec_nil_left (bs : List Char) : ∀ pre : List Char,
    tailSpec [] pre bs = (List.range bs.length).map (fun t => pre.length + 1 + t) := by
  induction bs with
  | nil => intro pre; rfl
  | cons y bs' ih =>
    intro pre
    simp only [tailSpec, ih (pre ++ [y]), editDist_nil_left, List.length_cons]
    rw [List.range_succ_eq_map]
    simp only [List.map_cons, List.map_map, List.length_append, List.length_cons,
      List.length_nil, Nat.add_zero]
    congr 1
    apply List.map_congr_left
    intro t _
    simp only [Function.comp]
    omega

theorem rowSpec_nil (b : List Char) : rowSpec [] b = List.range (b.length + 1) := by
  unfold rowSpec
  rw [tailSpec_nil_left b [], List.range_succ_eq_map]
  simp only [editDist_nil_left, List.length_nil]
  congr 1
  apply List.map_congr_left
  intro t _
  omega

theorem tailSpec_getD (bs : List Char) : ∀ (pre u : List Char), bs ≠ [] →
    (tailSpec u pre bs).getD (bs.length - 1) 0 = editDist u (pre ++ bs) := by
  induction bs with
  | nil => intro pre u h; exact absurd rfl h
  | cons y bs' ih =>
    intro pre u _
    cases bs' with
    | nil => simp [tailSpec]
    | cons z bs'' =>
      have h2 := ih (pre ++ [y]) u (by simp)
      simp only [tailSpec, List.length_cons]
      show (editDist u (pre ++ [y]) ::
          tailSpec u (pre ++ [y]) (z :: bs'')).getD ((z :: bs'').length + 1 - 1) 0 =
        editDist u (pre ++ y :: z :: bs'')
      rw [show (z :: bs'').length + 1 - 1 = ((z :: bs'').length - 1) + 1 by
        simp]
      rw [List.getD_cons_succ]
      rw [h2]
      simp

/-- The dp-array implementation of `SearchEngine.levenshteinDistance` computes
exactly the textbook Levenshtein distance. -/
theorem levenshteinDistance_eq_editDist (a b : List Char) :
    levenshteinDistance a b = editDist a b := by
  unfold levenshteinDistance
  by_cases ha : a.isEmpty
  · rw [List.isEmpty_iff] at ha
    subst ha
    simp [editDist_nil_left]
  · by_cases hb : b.isEmpty
    · rw [List.isEmpty_iff] at hb
      subst hb
      simp [ha, editDist_nil_right]
    · simp only [ha, hb, Bool.false_eq_true, if_false]
      rw [← rowSpec_nil b]
      rw [show a.foldl (fun row c => levRow c b row) (rowSpec [] b) =
        rowSpec ([] ++ a) b from levFold_spec b a []]
      rw [List.isEmpty_iff] at hb
      simp only [List.nil_append]
      show (editDist a [] :: tailSpec a [] b).getD b.length 0 = editDist a b
      obtain ⟨m, hm⟩ : ∃ m, b.length = m + 1 :=
        ⟨b.length - 1, by cases b with
          | nil => exact absurd rfl hb
          | cons z zs => simp⟩
      have h2 := tailSpec_getD b [] a hb
      rw [hm] at h2 ⊢
      rw [List.getD_cons_succ]
      simpa using h2

/-- The ranking rule exactly as the spec words it, with `editDist` as the edit
(Levenshtein) distance and `max 1 (floor(0.3 * len))` as the threshold
(`Math.floor(len * 0.3) = len * 3 / 10` for every length). -/
def specSymbolScore (symName query : String) : Nat :=
  let name := jsToLower symName.data
  let q := jsToLower query.data
  if name = q then 100
  else if q.isPrefixOf name then 90
  else if containsSub name q then 70
  else
    let d := editDist name q
    let threshold := max 1 (name.length * 3 / 10)
    if d ≤ threshold then max 1 (60 - 5 * d) else 0

/-- C1: for every symbol and query, the case-insensitive search score computed
by `SearchEngine.calculateSymbolScore` is exactly the spec's ranking rule
(100 for equality, 90 for starts-with, 70 for contains, else
`max 1 (60 - 5d)` when the Levenshtein distance `d` is within
`max 1 (floor(0.3 * len))` and 0 otherwise); in particular for query `"alu"`,
a symbol named `"alu"` scores 100, `"alu_ctrl"` scores 90, and `"zlu"` scores
55, ranking at or below `"alu_ctrl"`. -/
theorem calculateSymbolScore_spec (sym : Symbol) (query : String) :
    calculateSymbolScore sym query = specSymbolScore sym.name query ∧
    calculateSymbolScore (mkExtractedSymbol "/f.v" "alu" "module" 0) "alu" = 100 ∧
    calculateSymbolScore (mkExtractedSymbol "/f.v" "alu_ctrl" "module" 0) "alu" = 90 ∧
    calculateSymbolScore (mkExtractedSymbol "/f.v" "zlu" "module" 0) "alu" = 55 ∧
    calculateSymbolScore (mkExtractedSymbol "/f.v" "zlu" "module" 0) "alu" ≤
      calculateSymbolScore (mkExtractedSymbol "/f.v" "alu_ctrl" "module" 0) "alu" := by
  refine ⟨?_, by decide, by decide, by decide, by decide⟩
  unfold calculateSymbolScore specSymbolScore
  simp only [levenshteinDistance_eq_editDist, Nat.mul_comm _ 5]

/-! ## Claims C4 / C5: updateFile replaces, and is idempotent

The proofs go through an invariant `Inv` of the symbol table (well-formedness
of a live `SymbolIndexer`): symbol-map keys are unique, every entry is stored
under its own `id`, and every entry's id is registered in the path index under
the entry's path.  `Inv` holds for the empty indexer and is preserved by
`addSymbol`, `removeSymbol` and hence `updateFile`. -/

def Inv (st : IndexerState) : Prop :=
  (st.symbols.map Prod.fst).Nodup ∧
  ∀ e ∈ st.symbols, e.2.id = e.1 ∧ e.1 ∈ (mapGet st.pathIndex e.2.path).getD []

theorem inv_empty : Inv emptyIndexer := by
  constructor
  · simp [emptyIndexer]
  · intro e he
    simp [emptyIndexer] at he

theorem mapGet_cons {α : Type} (e : String × α) (rest : JsMap α) (j : String) :
    mapGet (e :: rest) j = if e.1 = j then some e.2 else mapGet rest j := by
  by_cases h : e.1 = j <;> simp [mapGet, List.find?, h]

theorem mapGet_mapDelete {α : Type} (m : JsMap α) (k j : String) :
    mapGet (mapDelete m k) j = if j = k then none else mapGet m j := by
  induction m with
  | nil => by_cases hj : j = k <;> simp [mapDelete, mapGet, hj]
  | cons e rest ih =>
    by_cases hek : e.1 = k
    · have h1 : mapDelete (e :: rest) k = mapDelete rest k := by
        simp [mapDelete, List.filter_cons, hek]
      rw [h1, ih, mapGet_cons]
      by_cases hj : j = k
      · simp [hj]
      · have hje : e.1 ≠ j := by rw [hek]; exact fun hh => hj hh.symm
        simp [hje]
    · have h1 : mapDelete (e :: rest) k = e :: mapDelete rest k := by
        simp [mapDelete, List.filter_cons, hek]
      rw [h1, mapGet_cons, mapGet_cons]
      by_cases hje : e.1 = j
      · have hjk : j ≠ k := fun hh => hek (hje.trans hh)
        simp [hje, hjk]
      · simp [hje, ih]

theorem addSymbol_symbols_get (st : IndexerState) (s : Symbol) (j : String) :
    mapGet (addSymbol st s).symbols j = if j = s.id then some s else mapGet st.symbols j := by
  unfold addSymbol
  exact mapGet_mapSet st.symbols s.id j s

theorem removeSymbol_symbols_get (st : IndexerState) (i j : String) :
    mapGet (removeSymbol st i).symbols j = if j = i then none else mapGet st.symbols j := by
  unfold removeSymbol
  cases h : mapGet st.symbols i with
  | none =>
    by_cases hj : j = i
    · subst hj; simp [h]
    · simp [hj]
  | some sym =>
    exact mapGet_mapDelete st.symbols i j

theorem foldRemove_symbols_get (L : List String) : ∀ (st : IndexerState) (j : String),
    mapGet ((L.foldl removeSymbol st).symbols) j =
      if j ∈ L then none else mapGet st.symbols j := by
  induction L with
  | nil => intro st j; simp
  | cons i L' ih =>
    intro st j
    rw [List.foldl_cons, ih (removeSymbol st i) j, removeSymbol_symbols_get]
    by_cases h1 : j ∈ L' <;> by_cases h2 : j = i <;>
      simp [h1, h2, List.mem_cons]

/-- The last extracted symbol carrying a given id (later extraction entries
overwrite earlier ones with the same id). -/
def lastWithId (l : List Symbol) (k : String) : Option Symbol :=
  l.reverse.find? (fun s => decide (s.id = k))

theorem foldAdd_symbols_get (l : List Symbol) : ∀ (st : IndexerState) (k : String),
    mapGet ((l.foldl addSymbol st).symbols) k =
      match lastWithId l k with
      | some s => some s
      | none => mapGet st.symbols k := by
  induction l with
  | nil => intro st k; simp [lastWithId]
  | cons s l' ih =>
    intro st k
    have hsplit : lastWithId (s :: l') k =
        match lastWithId l' k with
        | some t => some t
        | none => if s.id = k then some s else none := by
      unfold lastWithId
      rw [List.reverse_cons, List.find?_append]
      cases h' : List.find? (fun s => decide (s.id = k)) l'.reverse with
      | some t => simp [Option.orElse]
      | none =>
        by_cases hk : s.id = k <;> simp [Option.orElse, List.find?, hk]
    rw [List.foldl_cons, ih (addSymbol st s) k, hsplit]
    cases h1 : lastWithId l' k with
    | some t => simp
    | none =>
      rw [addSymbol_symbols_get]
      by_cases hk : s.id = k
      · simp [hk]
      · have hk2 : k ≠ s.id := fun hh => hk hh.symm
        simp [hk, hk2]

theorem inv_addSymbol {st : IndexerState} (hInv : Inv st) (s : Symbol) :
    Inv (addSymbol st s) := by
  obtain ⟨hnd, hcov⟩ := hInv
  constructor
  · exact mapSet_keys_nodup s.id s hnd
  · intro e he
    rcases mem_mapSet he with h1 | h1
    · subst h1
      refine ⟨rfl, ?_⟩
      show s.id ∈ (mapGet (mapSet st.pathIndex s.path _) s.path).getD []
      rw [mapGet_mapSet_self]
      exact self_mem_setAdd _ _
    · obtain ⟨hid, hpi⟩ := hcov e h1
      refine ⟨hid, ?_⟩
      show e.1 ∈ (mapGet (mapSet st.pathIndex s.path _) e.2.path).getD []
      by_cases hp : e.2.path = s.path
      · rw [hp, mapGet_mapSet_self]
        simp only [Option.getD_some]
        rw [mem_setAdd_iff]
        left
        rw [hp] at hpi
        exact hpi
      · rw [mapGet_mapSet_ne _ _ _ _ hp]
        exact hpi

theorem inv_removeSymbol {st : IndexerState} (hInv : Inv st) (i : String) :
    Inv (removeSymbol st i) := by
  obtain ⟨hnd, hcov⟩ := hInv
  unfold removeSymbol
  cases hsym : mapGet st.symbols i with
  | none => exact ⟨hnd, hcov⟩
  | some sym =>
    constructor
    · exact mapDelete_keys_nodup i hnd
    · intro e he
      obtain ⟨hmem, hne⟩ := mem_mapDelete he
      obtain ⟨hid, hpi⟩ := hcov e hmem
      refine ⟨hid, ?_⟩
      cases hps : mapGet st.pathIndex sym.path with
      | none =>
        simp only [hps]
        exact hpi
      | some pathSet =>
        simp only [hps]
        by_cases hp : e.2.path = sym.path
        · have he1 : e.1 ∈ pathSet := by
            rw [hp, hps] at hpi
            simpa using hpi
          have he2 : e.1 ∈ setDelete pathSet i :=
            mem_setDelete_iff.mpr ⟨he1, hne⟩
          have hnonempty : (setDelete pathSet i).isEmpty = false := by
            cases hsd : setDelete pathSet i with
            | nil => rw [hsd] at he2; simp at he2
            | cons a l => simp
          rw [if_neg (by simp [hnonempty])]
          rw [hp, mapGet_mapSet_self]
          simpa using he2
        · by_cases hemp : (setDelete pathSet i).isEmpty
          · rw [if_pos hemp, mapGet_mapDelete]
            rw [if_neg hp]
            exact hpi
          · rw [if_neg hemp, mapGet_mapSet_ne _ _ _ _ hp]
            exact hpi

theorem inv_foldRemove (L : List String) : ∀ {st : IndexerState}, Inv st →
    Inv (L.foldl removeSymbol st) := by
  induction L with
  | nil => intro st h; exact h
  | cons i L' ih =>
    intro st h
    exact ih (inv_removeSymbol h i)

theorem inv_foldAdd (l : List Symbol) : ∀ {st : IndexerState}, Inv st →
    Inv (l.foldl addSymbol st) := by
  induction l with
  | nil => intro st h; exact h
  | cons s l' ih =>
    intro st h
    exact ih (inv_addSymbol h s)

theorem inv_updateFile {st : IndexerState} (hInv : Inv st) (p : String)
    (co : Option String) (d : String) : Inv (updateFile st p co d) :=
  inv_foldAdd _ (inv_foldRemove _ hInv)

theorem mem_symbolsForPath_iff (st : IndexerState) (p : String) (sym : Symbol)
    (hnd : (st.symbols.map Prod.fst).Nodup) :
    sym ∈ symbolsForPath st p ↔ ∃ k, mapGet st.symbols k = some sym ∧ sym.path = p := by
  unfold symbolsForPath
  simp only [List.mem_map, List.mem_filter, decide_eq_true_eq]
  constructor
  · rintro ⟨e, ⟨he, hp⟩, rfl⟩
    exact ⟨e.1, mapGet_eq_some_of_mem hnd (by simpa using he), hp⟩
  · rintro ⟨k, hk, hp⟩
    exact ⟨(k, sym), ⟨mem_of_mapGet_eq_some hk, hp⟩, rfl⟩

theorem extractSymbols_path (p c : String) :
    ∀ sym ∈ extractSymbols p c, sym.path = p := by
  intro sym hmem
  unfold extractSymbols at hmem
  simp only [List.mem_flatMap, List.mem_map] at hmem
  obtain ⟨pk, _, nm, _, rfl⟩ := hmem
  rfl

/-- Membership in the symbol table under path `p` right after `updateFile`:
exactly the last extraction entry carrying the symbol's id.  In particular the
result does not depend on the prior state (as long as it is well formed). -/
theorem updateFile_mem_iff (st : IndexerState) (p : String) (co : Option String)
    (d : String) (hInv : Inv st) (sym : Symbol) :
    sym ∈ symbolsForPath (updateFile st p co d) p ↔
      lastWithId (extractSymbols p (effectiveContent co d)) sym.id = some sym := by
  have hInvF : Inv (updateFile st p co d) := inv_updateFile hInv p co d
  have hUF : updateFile st p co d =
      (extractSymbols p (effectiveContent co d)).foldl addSymbol
        (((mapGet st.pathIndex p).getD []).foldl removeSymbol st) := rfl
  constructor
  · intro hmem
    obtain ⟨k, hk, hp⟩ := (mem_symbolsForPath_iff _ _ _ hInvF.1).mp hmem
    rw [hUF, foldAdd_symbols_get] at hk
    cases h1 : lastWithId (extractSymbols p (effectiveContent co d)) k with
    | some t =>
      rw [h1] at hk
      simp only [Option.some.injEq] at hk
      have h1' : (extractSymbols p (effectiveContent co d)).reverse.find?
          (fun s => decide (s.id = k)) = some t := h1
      have h3 := List.find?_some h1'
      rw [hk] at h3 h1
      have h2 : sym.id = k := by simpa using h3
      rw [h2]
      exact h1
    | none =>
      rw [h1] at hk
      simp only at hk
      rw [foldRemove_symbols_get] at hk
      by_cases hkL : k ∈ (mapGet st.pathIndex p).getD []
      · rw [if_pos hkL] at hk
        exact absurd hk (by simp)
      · rw [if_neg hkL] at hk
        have hmem2 := mem_of_mapGet_eq_some hk
        obtain ⟨_, hcov⟩ := hInv.2 _ hmem2
        rw [hp] at hcov
        exact absurd hcov hkL
  · intro hlast
    have hget : mapGet (updateFile st p co d).symbols sym.id = some sym := by
      rw [hUF, foldAdd_symbols_get, hlast]
    have hsym_mem : sym ∈ extractSymbols p (effectiveContent co d) := by
      have h2 := List.mem_of_find?_eq_some hlast
      simpa using h2
    exact (mem_symbolsForPath_iff _ _ _ hInvF.1).mpr
      ⟨sym.id, hget, extractSymbols_path _ _ sym hsym_mem⟩

/-- C4: for every well-formed table state and contents `c1 ≠ c2`, after
`updateFile(p, c1)` and then `updateFile(p, c2)` every symbol remaining in the
table for path `p` comes from `c2`'s extraction; hence no symbol extracted
from `c1` and not from `c2` remains — re-indexing removes and replaces the
full symbol set of the path. -/
theorem updateFile_replaces (st : IndexerState) (p c1 c2 d1 d2 : String)
    (hInv : Inv st) (hc2 : c2 ≠ "") :
    (∀ sym ∈ symbolsForPath
        (updateFile (updateFile st p (some c1) d1) p (some c2) d2) p,
      sym ∈ extractSymbols p c2) ∧
    (∀ sym ∈ extractSymbols p c1, sym ∉ extractSymbols p c2 →
      sym ∉ symbolsForPath
        (updateFile (updateFile st p (some c1) d1) p (some c2) d2) p) := by
  have hInv1 : Inv (updateFile st p (some c1) d1) := inv_updateFile hInv _ _ _
  have heff : effectiveContent (some c2) d2 = c2 := by simp [effectiveContent, hc2]
  have main : ∀ sym ∈ symbolsForPath
      (updateFile (updateFile st p (some c1) d1) p (some c2) d2) p,
      sym ∈ extractSymbols p c2 := by
    intro sym hmem
    have h := (updateFile_mem_iff _ p (some c2) d2 hInv1 sym).mp hmem
    rw [heff] at h
    have h2 : sym ∈ (extractSymbols p c2).reverse := List.mem_of_find?_eq_some h
    simpa using h2
  exact ⟨main, fun sym _ hnot hmem => hnot (main sym hmem)⟩

set_option maxRecDepth 100000 in
/-- Witness for C4: from the empty indexer, after indexing `module m` and then
`module k` under `/a/top.v`, the symbol extracted from the second content is
in the table and comes from the second extraction. -/
theorem updateFile_replaces_witness :
    Inv emptyIndexer ∧ ("module k" : String) ≠ "" ∧
    mkExtractedSymbol "/a/top.v" "k" "module" 0 ∈
      symbolsForPath (updateFile (updateFile emptyIndexer "/a/top.v"
        (some "module m") "") "/a/top.v" (some "module k") "") "/a/top.v" ∧
    mkExtractedSymbol "/a/top.v" "k" "module" 0 ∈ extractSymbols "/a/top.v" "module k" :=
  ⟨inv_empty, by decide, by decide,
    (updateFile_replaces emptyIndexer "/a/top.v" "module m" "module k" "" ""
      inv_empty (by decide)).1 _ (by decide)⟩

/-- C5: `updateFile` is idempotent — from any well-formed state, calling
`updateFile(p, c)` twice in succession leaves exactly the same symbol set for
`p` as calling it once; and on a path not previously indexed it is a pure
insert (no removal happens). -/
theorem updateFile_idempotent (st : IndexerState) (p : String) (c : Option String)
    (d : String) (hInv : Inv st) :
    (∀ sym, sym ∈ symbolsForPath (updateFile (updateFile st p c d) p c d) p ↔
      sym ∈ symbolsForPath (updateFile st p c d) p) ∧
    (mapGet st.pathIndex p = none →
      updateFile st p c d = indexSingleFile st p (effectiveContent c d)) := by
  have hInv1 : Inv (updateFile st p c d) := inv_updateFile hInv p c d
  constructor
  · intro sym
    rw [updateFile_mem_iff _ p c d hInv1 sym, updateFile_mem_iff _ p c d hInv sym]
  · intro hnone
    unfold updateFile
    rw [hnone]
    rfl

set_option maxRecDepth 100000 in
/-- Witness for C5 at a concrete content. -/
theorem updateFile_idempotent_witness :
    Inv emptyIndexer ∧
    (mkExtractedSymbol "/a/top.v" "m" "module" 0 ∈
        symbolsForPath (updateFile (updateFile emptyIndexer "/a/top.v"
          (some "module m") "") "/a/top.v" (some "module m") "") "/a/top.v" ↔
      mkExtractedSymbol "/a/top.v" "m" "module" 0 ∈
        symbolsForPath (updateFile emptyIndexer "/a/top.v"
          (some "module m") "") "/a/top.v") :=
  ⟨inv_empty,
    (updateFile_idempotent emptyIndexer "/a/top.v" (some "module m") "" inv_empty).1 _⟩

/-! ## Claim C6: ordering of search results

The comparator never compares file or line for two results that both carry
scores, and the sort is stable, so equal-score symbol results keep their
original (symbol-table insertion) order instead of being ordered by file
path.  The claim is refuted by a concrete search and the amended ordering is
proved. -/

/-- Well-formedness of the results the engine ever sorts: symbol results carry
a score, text results do not. -/
def resultWF (r : SearchResult) : Prop :=
  (r.type = ResultType.symbol → r.score.isSome) ∧
  (r.type = ResultType.text → r.score = none)

def cmpLE (a b : SearchResult) : Prop := compareResults a b ≤ 0

theorem compareResults_symbol_text {a b : SearchResult}
    (ha : a.type = ResultType.symbol) (hb : b.type = ResultType.text) :
    compareResults a b = -1 := by
  unfold compareResults
  rw [if_pos ⟨ha, hb⟩]

theorem compareResults_text_symbol {a b : SearchResult}
    (ha : a.type = ResultType.text) (hb : b.type = ResultType.symbol) :
    compareResults a b = 1 := by
  unfold compareResults
  rw [if_neg (by simp [ha]), if_pos ⟨ha, hb⟩]

theorem compareResults_scores {a b : SearchResult} {sa sb : Nat}
    (hsa : a.score = some sa) (hsb : b.score = some sb)
    (hab : ¬(a.type = ResultType.symbol ∧ b.type = ResultType.text))
    (hba : ¬(a.type = ResultType.text ∧ b.type = ResultType.symbol)) :
    compareResults a b = (sb : Int) - (sa : Int) := by
  unfold compareResults
  rw [if_neg hab, if_neg hba, hsa, hsb]

theorem compareResults_text_text {a b : SearchResult}
    (ha : a.type = ResultType.text) (hb : b.type = ResultType.text)
    (hsa : a.score = none) :
    compareResults a b = fileLineCmp a b := by
  unfold compareResults
  rw [if_neg (by simp [ha]), if_neg (by simp [hb]), hsa]

theorem fileLineCmp_le_iff {a b : SearchResult} :
    fileLineCmp a b ≤ 0 ↔ a.file < b.file ∨ (a.file = b.file ∧ a.line ≤ b.line) := by
  unfold fileLineCmp
  by_cases hf : a.file = b.file
  · simp [hf]
  · by_cases hlt : a.file < b.file
    · simp [hf, hlt]
    · simp [hf, hlt]

/-- Within well-formed results the comparator order is total. -/
theorem cmpLE_total {a b : SearchResult} (hwa : resultWF a) (hwb : resultWF b) :
    cmpLE a b ∨ cmpLE b a := by
  unfold cmpLE
  cases ha : a.type <;> cases hb : b.type
  · obtain ⟨sa, hsa⟩ := Option.isSome_iff_exists.mp (hwa.1 ha)
    obtain ⟨sb, hsb⟩ := Option.isSome_iff_exists.mp (hwb.1 hb)
    rw [compareResults_scores hsa hsb (by simp [hb]) (by simp [ha]),
      compareResults_scores hsb hsa (by simp [ha]) (by simp [hb])]
    omega
  · left
    rw [compareResults_symbol_text ha hb]
    omega
  · right
    rw [compareResults_symbol_text hb ha]
    omega
  · rw [compareResults_text_text ha hb (hwa.2 ha),
      compareResults_text_text hb ha (hwb.2 hb)]
    rw [fileLineCmp_le_iff, fileLineCmp_le_iff]
    rcases lt_trichotomy a.file b.file with h2 | h2 | h2
    · exact Or.inl (Or.inl h2)
    · rcases le_total a.line b.line with h3 | h3
      · exact Or.inl (Or.inr ⟨h2, h3⟩)
      · exact Or.inr (Or.inr ⟨h2.symm, h3⟩)
    · exact Or.inr (Or.inl h2)

/-- Within well-formed results the comparator order is transitive. -/
theorem cmpLE_trans {a b c : SearchResult} (hwa : resultWF a) (hwb : resultWF b)
    (hwc : resultWF c) (h1 : cmpLE a b) (h2 : cmpLE b c) : cmpLE a c := by
  unfold cmpLE at h1 h2 ⊢
  cases ha : a.type <;> cases hc : c.type
  · cases hb : b.type
    · obtain ⟨sa, hsa⟩ := Option.isSome_iff_exists.mp (hwa.1 ha)
      obtain ⟨sb, hsb⟩ := Option.isSome_iff_exists.mp (hwb.1 hb)
      obtain ⟨sc, hsc⟩ := Option.isSome_iff_exists.mp (hwc.1 hc)
      rw [compareResults_scores hsa hsb (by simp [hb]) (by simp [ha])] at h1
      rw [compareResults_scores hsb hsc (by simp [hc]) (by simp [hb])] at h2
      rw [compareResults_scores hsa hsc (by simp [hc]) (by simp [ha])]
      omega
    · rw [compareResults_text_symbol hb hc] at h2
      omega
  · rw [compareResults_symbol_text ha hc]
    omega
  · cases hb : b.type
    · rw [compareResults_text_symbol ha hb] at h1
      omega
    · rw [compareResults_text_symbol hb hc] at h2
      omega
  · cases hb : b.type
    · rw [compareResults_text_symbol ha hb] at h1
      omega
    · rw [compareResults_text_text ha hb (hwa.2 ha)] at h1
      rw [compareResults_text_text hb hc (hwb.2 hb)] at h2
      rw [compareResults_text_text ha hc (hwa.2 ha)]
      rw [fileLineCmp_le_iff] at h1 h2 ⊢
      rcases h1 with h1 | ⟨h1e, h1l⟩ <;> rcases h2 with h2 | ⟨h2e, h2l⟩
      · exact Or.inl (lt_trans h1 h2)
      · exact Or.inl (h2e ▸ h1)
      · exact Or.inl (h1e ▸ h2)
      · exact Or.inr ⟨h1e.trans h2e, le_trans h1l h2l⟩

theorem mem_insertSorted {x r : SearchResult} : ∀ {l : List SearchResult},
    r ∈ insertSorted x l → r = x ∨ r ∈ l := by
  intro l
  induction l with
  | nil => intro h; simpa [insertSorted] using h
  | cons y ys ih =>
    intro h
    unfold insertSorted at h
    by_cases hc : compareResults y x ≤ 0
    · rw [if_pos hc] at h
      rcases List.mem_cons.mp h with h1 | h1
      · exact Or.inr (List.mem_cons.mpr (Or.inl h1))
      · rcases ih h1 with h2 | h2
        · exact Or.inl h2
        · exact Or.inr (List.mem_cons.mpr (Or.inr h2))
    · rw [if_neg hc] at h
      rcases List.mem_cons.mp h with h1 | h1
      · exact Or.inl h1
      · exact Or.inr h1

theorem pairwise_insertSorted {x : SearchResult} : ∀ {l : List SearchResult},
    (∀ r ∈ x :: l, resultWF r) → l.Pairwise cmpLE →
    (insertSorted x l).Pairwise cmpLE := by
  intro l
  induction l with
  | nil => intro _ _; simp [insertSorted]
  | cons y ys ih =>
    intro hwf hp
    have hwx : resultWF x := hwf x (by simp)
    have hwy : resultWF y := hwf y (by simp)
    unfold insertSorted
    by_cases hc : compareResults y x ≤ 0
    · rw [if_pos hc]
      rw [List.pairwise_cons] at hp ⊢
      constructor
      · intro r hr
        rcases mem_insertSorted hr with h1 | h1
        · subst h1; exact hc
        · exact hp.1 r h1
      · exact ih (fun r hr => hwf r (by
          rcases List.mem_cons.mp hr with h1 | h1
          · exact h1 ▸ List.mem_cons_self _ _
          · simp [h1])) hp.2
    · rw [if_neg hc]
      rw [List.pairwise_cons] at hp
      rw [List.pairwise_cons]
      constructor
      · intro r hr
        have hxy : cmpLE x y := by
          rcases cmpLE_total hwx hwy with h | h
          · exact h
          · exact absurd h hc
        rcases List.mem_cons.mp hr with h1 | h1
        · exact h1 ▸ hxy
        · exact cmpLE_trans hwx hwy (hwf r (by simp [h1])) hxy (hp.1 r h1)
      · rw [List.pairwise_cons]
        exact hp

theorem sortResults_pairwise_aux : ∀ (l acc : List SearchResult),
    (∀ r ∈ acc, resultWF r) → (∀ r ∈ l, resultWF r) → acc.Pairwise cmpLE →
    (l.foldl (fun acc r => insertSorted r acc) acc).Pairwise cmpLE := by
  intro l
  induction l with
  | nil => intro acc h1 _ hp; exact hp
  | cons r rest ih =>
    intro acc hacc hl hp
    rw [List.foldl_cons]
    have hwr : resultWF r := hl r (by simp)
    have hacc2 : ∀ s ∈ insertSorted r acc, resultWF s := by
      intro s hs
      rcases mem_insertSorted hs with h1 | h1
      · exact h1 ▸ hwr
      · exact hacc s h1
    exact ih (insertSorted r acc) hacc2 (fun s hs => hl s (by simp [hs]))
      (pairwise_insertSorted (fun s hs => by
        rcases List.mem_cons.mp hs with h1 | h1
        · exact h1 ▸ hwr
        · exact hacc s h1) hp)

theorem sortResults_pairwise (l : List SearchResult)
    (hwf : ∀ r ∈ l, resultWF r) : (sortResults l).Pairwise cmpLE :=
  sortResults_pairwise_aux l [] (by simp) hwf (by simp)

theorem searchSymbols_wf (st : IndexerState) (q : String) :
    ∀ r ∈ searchSymbols st q, resultWF r := by
  intro r hr
  unfold searchSymbols at hr
  simp only [List.mem_filterMap] at hr
  obtain ⟨sym, _, hsym⟩ := hr
  by_cases hs : 0 < calculateSymbolScore sym q
  · rw [if_pos hs] at hsym
    cases hsym
    exact ⟨fun _ => rfl, fun h => by simp at h⟩
  · rw [if_neg hs] at hsym
    cases hsym

/-- The amended per-pair ordering: symbol results precede text results; two
symbol results are ordered by descending score (nothing more — ties keep the
symbol-table insertion order); two text results are ordered by file path,
then line. -/
def orderedAfter (a b : SearchResult) : Prop :=
  (a.type = ResultType.symbol ∧ b.type = ResultType.text) ∨
  (a.type = ResultType.symbol ∧ b.type = ResultType.symbol ∧
    b.score.getD 0 ≤ a.score.getD 0) ∨
  (a.type = ResultType.text ∧ b.type = ResultType.text ∧
    (a.file < b.file ∨ (a.file = b.file ∧ a.line ≤ b.line)))

theorem cmpLE_orderedAfter {a b : SearchResult} (hwa : resultWF a)
    (hwb : resultWF b) (h : cmpLE a b) : orderedAfter a b := by
  unfold cmpLE at h
  unfold orderedAfter
  cases ha : a.type <;> cases hb : b.type
  · obtain ⟨sa, hsa⟩ := Option.isSome_iff_exists.mp (hwa.1 ha)
    obtain ⟨sb, hsb⟩ := Option.isSome_iff_exists.mp (hwb.1 hb)
    rw [compareResults_scores hsa hsb (by simp [hb]) (by simp [ha])] at h
    refine Or.inr (Or.inl ⟨rfl, rfl, ?_⟩)
    rw [hsa, hsb]
    simpa using (by omega : sb ≤ sa)
  · exact Or.inl ⟨rfl, rfl⟩
  · rw [compareResults_text_symbol ha hb] at h
    omega
  · rw [compareResults_text_text ha hb (hwa.2 ha), fileLineCmp_le_iff] at h
    exact Or.inr (Or.inr ⟨rfl, rfl, h⟩)

/-- C6 (amended): every result list returned by `search` has all symbol-type
results before all text-type results; symbol results are sorted by descending
score (score ties keep their original symbol-table order — the comparator
returns `b.score - a.score = 0` and never falls through to file or line for
two scored results); text results are sorted by file path, then by line
number ascending. -/
theorem mem_sortResults_aux : ∀ (l acc : List SearchResult) (r : SearchResult),
    r ∈ l.foldl (fun acc r => insertSorted r acc) acc → r ∈ acc ∨ r ∈ l := by
  intro l
  induction l with
  | nil => intro acc r h; exact Or.inl h
  | cons x rest ih =>
    intro acc r h
    rw [List.foldl_cons] at h
    rcases ih (insertSorted x acc) r h with h1 | h1
    · rcases mem_insertSorted h1 with h2 | h2
      · exact Or.inr (by simp [h2])
      · exact Or.inl h2
    · exact Or.inr (by simp [h1])

theorem mem_sortResults {l : List SearchResult} {r : SearchResult}
    (h : r ∈ sortResults l) : r ∈ l := by
  rcases mem_sortResults_aux l [] r h with h1 | h1
  · simp at h1
  · exact h1

theorem sortResults_orderedAfter (l : List SearchResult)
    (hwf : ∀ r ∈ l, resultWF r) : (sortResults l).Pairwise orderedAfter := by
  have hp := sortResults_pairwise l hwf
  have hmem : ∀ r ∈ sortResults l, resultWF r := fun r hr =>
    hwf r (mem_sortResults hr)
  exact List.Pairwise.imp_of_mem
    (fun {a b} hma hmb h => cmpLE_orderedAfter (hmem a hma) (hmem b hmb) h) hp

theorem search_order_amended (st : IndexerState) (textResults : List SearchResult)
    (q : String) (ty : Option String)
    (hwf : ∀ r ∈ textResults, r.type = ResultType.text ∧ r.score = none) :
    (searchImpl st textResults q ty).Pairwise orderedAfter := by
  have hwfBase : ∀ r ∈ (if ty = none ∨ ty = some "symbol" then searchSymbols st q
      else []), resultWF r := by
    intro r hr
    by_cases hty : ty = none ∨ ty = some "symbol"
    · rw [if_pos hty] at hr
      exact searchSymbols_wf st q r hr
    · rw [if_neg hty] at hr
      simp at hr
  have hwfText : ∀ r ∈ textResults, resultWF r := fun r h1 =>
    ⟨fun h => absurd ((hwf r h1).1.symm.trans h) (by decide),
     fun _ => (hwf r h1).2⟩
  show (sortResults (if (if ty = none ∨ ty = some "symbol" then searchSymbols st q
      else []).isEmpty ∨ ty = some "text"
    then (if ty = none ∨ ty = some "symbol" then searchSymbols st q else []) ++
      textResults
    else (if ty = none ∨ ty = some "symbol" then searchSymbols st q
      else []))).Pairwise orderedAfter
  apply sortResults_orderedAfter
  intro r hr
  by_cases h2 : (if ty = none ∨ ty = some "symbol" then searchSymbols st q
      else []).isEmpty = true ∨ ty = some "text"
  · rw [if_pos h2] at hr
    rcases List.mem_append.mp hr with h3 | h3
    · exact hwfBase r h3
    · exact hwfText r h3
  · rw [if_neg h2] at hr
    exact hwfBase r hr

/-- Witness for the amended C6 ordering at a concrete search. -/
theorem search_order_amended_witness :
    (∀ r ∈ ([] : List SearchResult), r.type = ResultType.text ∧ r.score = none) ∧
    (searchImpl emptyIndexer [] "x" none).Pairwise orderedAfter :=
  ⟨by simp, search_order_amended emptyIndexer [] "x" none (by simp)⟩

/-- The per-pair ordering the claim asserts: within one result type,
descending score, then file path, then line number. -/
def claimPairLE (a b : SearchResult) : Prop :=
  (a.type = ResultType.symbol ∧ b.type = ResultType.text) ∨
  (a.type = b.type ∧ (b.score.getD 0 < a.score.getD 0 ∨
    (a.score.getD 0 = b.score.getD 0 ∧
      (a.file < b.file ∨ (a.file = b.file ∧ a.line ≤ b.line)))))

/-- `claimPairLE` in terms of the (type, score, file, line) projection. -/
def claimTupleLE (x y : ResultType × Nat × String × Nat) : Prop :=
  (x.1 = ResultType.symbol ∧ y.1 = ResultType.text) ∨
  (x.1 = y.1 ∧ (y.2.1 < x.2.1 ∨ (x.2.1 = y.2.1 ∧
    (x.2.2.1 < y.2.2.1 ∨ (x.2.2.1 = y.2.2.1 ∧ x.2.2.2 ≤ y.2.2.2)))))

set_option maxRecDepth 100000 in
/-- C6 counterexample: index `module foo` under `/b.v` and then under `/a.v`;
searching `"foo"` (mode `symbol`) returns both symbol results with equal score
100 in symbol-table order — file `/b.v` before `/a.v` — so the returned list
is NOT sorted by file path within equal scores, refuting the claimed
ordering. -/
theorem sortResults_tie_counterexample :
    ((searchImpl (updateFile (updateFile emptyIndexer "/b.v" (some "module foo") "")
        "/a.v" (some "module foo") "") [] "foo" (some "symbol")).map
      (fun r => r.file) = ["/b.v", "/a.v"]) ∧
    ¬ (searchImpl (updateFile (updateFile emptyIndexer "/b.v" (some "module foo") "")
        "/a.v" (some "module foo") "") [] "foo" (some "symbol")).Pairwise claimPairLE := by
  refine ⟨by decide, ?_⟩
  intro hp
  have hmap : (searchImpl (updateFile (updateFile emptyIndexer "/b.v"
        (some "module foo") "") "/a.v" (some "module foo") "") [] "foo"
        (some "symbol")).map (fun r => (r.type, r.score.getD 0, r.file, r.line)) =
      [(ResultType.symbol, 100, "/b.v", 0), (ResultType.symbol, 100, "/a.v", 0)] := by
    decide
  have hp1 : (searchImpl (updateFile (updateFile emptyIndexer "/b.v"
      (some "module foo") "") "/a.v" (some "module foo") "") [] "foo"
      (some "symbol")).Pairwise (fun a b =>
        claimTupleLE (a.type, a.score.getD 0, a.file, a.line)
          (b.type, b.score.getD 0, b.file, b.line)) :=
    hp.imp (fun {a b} h => h)
  have hp2 := List.pairwise_map.mpr hp1
  rw [hmap] at hp2
  rw [List.pairwise_cons] at hp2
  have hle := hp2.1 (ResultType.symbol, 100, "/a.v", 0) (by simp)
  unfold claimTupleLE at hle
  simp only at hle
  rcases hle with ⟨_, hcon⟩ | ⟨_, hcon | ⟨_, hcon | ⟨hcon, _⟩⟩⟩
  · exact absurd hcon (by decide)
  · exact absurd hcon (by omega)
  · rw [String.lt_iff_toList_lt] at hcon
    exact absurd hcon (by decide)
  · exact absurd hcon (by
      intro hh
      have := congrArg String.toList hh
      revert this
      decide)

/-! ## Claim C7: graph walks terminate even on cyclic instantiation graphs

Both `getCriticalPath` and `calculateHierarchyDepth` guard their dfs with a
visited set, so the recursion depth is bounded by the number of distinct
module names the graph can mention (`graphUniverse`).  The fuel-indexed
embeddings are shown to stabilize once the fuel reaches that bound, for every
graph — in particular for cyclic ones. -/

theorem dfsCritical_succ (g : ModuleGraph) (fuel : Nat) (path : List String)
    (m : String) (longest : List String) :
    dfsCritical g (fuel + 1) path m longest =
      if m ∈ path then some longest
      else
        if ((mapGet g.edges m).getD []).isEmpty then
          some (if longest.length < (path ++ [m]).length then path ++ [m] else longest)
        else
          ((mapGet g.edges m).getD []).foldl
            (fun acc c => acc.bind (fun l => dfsCritical g fuel (path ++ [m]) c l))
            (some longest) := rfl

theorem mem_graphUniverse_of_child {g : ModuleGraph} {m c : String}
    (h : c ∈ (mapGet g.edges m).getD []) : c ∈ graphUniverse g := by
  unfold graphUniverse
  rw [List.mem_dedup]
  refine List.mem_append.mpr (Or.inr ?_)
  cases hm : mapGet g.edges m with
  | none => rw [hm] at h; simp at h
  | some l =>
    rw [hm] at h
    simp only [Option.getD_some] at h
    exact List.mem_flatMap.mpr ⟨(m, l), mem_of_mapGet_eq_some hm, h⟩

theorem mem_graphUniverse_of_node {g : ModuleGraph} {m : String}
    (h : m ∈ g.nodes.map Prod.fst) : m ∈ graphUniverse g := by
  unfold graphUniverse
  rw [List.mem_dedup]
  exact List.mem_append.mpr (Or.inl (List.mem_append.mpr (Or.inl h)))

theorem mem_graphUniverse_of_topLevel {g : ModuleGraph} {m : String}
    (h : m ∈ getTopLevelModules g) : m ∈ graphUniverse g := by
  unfold getTopLevelModules at h
  simp only [List.mem_filterMap] at h
  obtain ⟨e, he, hm⟩ := h
  by_cases hc : ((mapGet g.reverseEdges e.1).getD []).isEmpty
  · rw [if_pos hc] at hm
    cases hm
    exact mem_graphUniverse_of_node (List.mem_map.mpr ⟨e, he, rfl⟩)
  · rw [if_neg hc] at hm
    cases hm

theorem graphUniverse_nodup (g : ModuleGraph) : (graphUniverse g).Nodup :=
  List.nodup_dedup _

theorem nodup_subset_length_le {l u : List String} (hnd : l.Nodup)
    (hsub : ∀ x ∈ l, x ∈ u) : l.length ≤ u.length :=
  (hnd.subperm (fun {x} hx => hsub x hx)).length_le

theorem dfsCritical_fuel (g : ModuleGraph) : ∀ (f1 f2 : Nat) (path : List String)
    (m : String) (longest : List String),
    path.Nodup → (∀ x ∈ path, x ∈ graphUniverse g) → m ∈ graphUniverse g →
    (graphUniverse g).length - path.length < f1 →
    (graphUniverse g).length - path.length < f2 →
    dfsCritical g f1 path m longest = dfsCritical g f2 path m longest ∧
    (dfsCritical g f1 path m longest).isSome := by
  intro f1
  induction f1 using Nat.strong_induction_on with
  | _ f1 ih =>
    intro f2 path m longest hnd hsub hm h1 h2
    match f1, f2 with
    | 0, _ => omega
    | _ + 1, 0 => omega
    | F + 1, F' + 1 =>
      rw [dfsCritical_succ, dfsCritical_succ]
      by_cases hmem : m ∈ path
      · rw [if_pos hmem, if_pos hmem]
        exact ⟨rfl, rfl⟩
      · rw [if_neg hmem, if_neg hmem]
        by_cases hch : ((mapGet g.edges m).getD []).isEmpty
        · rw [if_pos hch, if_pos hch]
          exact ⟨rfl, rfl⟩
        · rw [if_neg hch, if_neg hch]
          have hnd2 : (path ++ [m]).Nodup := by
            rw [List.nodup_append]
            exact ⟨hnd, List.nodup_singleton m, by simpa using hmem⟩
          have hsub2 : ∀ x ∈ path ++ [m], x ∈ graphUniverse g := by
            intro x hx
            rcases List.mem_append.mp hx with hx | hx
            · exact hsub x hx
            · simp only [List.mem_singleton] at hx
              exact hx ▸ hm
          have hlen2 : (path ++ [m]).length ≤ (graphUniverse g).length :=
            nodup_subset_length_le hnd2 hsub2
          have hmeasF : (graphUniverse g).length - (path ++ [m]).length < F := by
            simp only [List.length_append, List.length_singleton] at hlen2 ⊢
            omega
          have hmeasF' : (graphUniverse g).length - (path ++ [m]).length < F' := by
            simp only [List.length_append, List.length_singleton] at hlen2 ⊢
            omega
          have inner : ∀ (cs : List String) (l : List String),
              (∀ c ∈ cs, c ∈ graphUniverse g) →
              cs.foldl (fun acc c => acc.bind
                (fun l => dfsCritical g F (path ++ [m]) c l)) (some l) =
              cs.foldl (fun acc c => acc.bind
                (fun l => dfsCritical g F' (path ++ [m]) c l)) (some l) ∧
              (cs.foldl (fun acc c => acc.bind
                (fun l => dfsCritical g F (path ++ [m]) c l)) (some l)).isSome := by
            intro cs
            induction cs with
            | nil => intro l _; exact ⟨rfl, rfl⟩
            | cons c cs' ihc =>
              intro l hcs
              have hc := ih F (by omega) F' (path ++ [m]) c l hnd2 hsub2
                (hcs c (by simp)) hmeasF hmeasF'
              obtain ⟨l1, hl1⟩ := Option.isSome_iff_exists.mp hc.2
              rw [List.foldl_cons, List.foldl_cons]
              simp only [Option.some_bind]
              rw [hl1, ← hc.1, hl1]
              exact ihc l1 (fun c2 hc2 => hcs c2 (by simp [hc2]))
          exact inner ((mapGet g.edges m).getD []) longest
            (fun c hc => mem_graphUniverse_of_child hc)

theorem getCriticalPathFuel_stable (g : ModuleGraph) (fuel : Nat)
    (h : criticalPathBound g ≤ fuel) :
    getCriticalPathFuel g fuel = getCriticalPathFuel g (criticalPathBound g) ∧
    (getCriticalPathFuel g (criticalPathBound g)).isSome := by
  unfold getCriticalPathFuel
  have inner : ∀ (tops : List String) (l : List String),
      (∀ x ∈ tops, x ∈ graphUniverse g) →
      tops.foldl (fun acc m => acc.bind (fun l => dfsCritical g fuel [] m l)) (some l) =
      tops.foldl (fun acc m => acc.bind
        (fun l => dfsCritical g (criticalPathBound g) [] m l)) (some l) ∧
      (tops.foldl (fun acc m => acc.bind
        (fun l => dfsCritical g (criticalPathBound g) [] m l)) (some l)).isSome := by
    intro tops
    induction tops with
    | nil => intro l _; exact ⟨rfl, rfl⟩
    | cons m tops' ihc =>
      intro l htops
      have hc := dfsCritical_fuel g fuel (criticalPathBound g) [] m l
        (List.nodup_nil) (by simp) (htops m (by simp))
        (by unfold criticalPathBound at h; simp only [List.length_nil]; omega)
        (by unfold criticalPathBound; simp only [List.length_nil]; omega)
      have hsome : (dfsCritical g (criticalPathBound g) [] m l).isSome := by
        rw [← hc.1]; exact hc.2
      obtain ⟨l1, hl1⟩ := Option.isSome_iff_exists.mp hsome
      rw [List.foldl_cons, List.foldl_cons]
      simp only [Option.some_bind]
      rw [hc.1, hl1]
      exact ihc l1 (fun x hx => htops x (by simp [hx]))
  have h2 := inner (getTopLevelModules g) []
    (fun x hx => mem_graphUniverse_of_topLevel hx)
  exact ⟨h2.1, h2.2⟩

theorem dfsDepth_succ (g : ModuleGraph) (fuel : Nat) (visited : List String)
    (m : String) :
    dfsDepth g (fuel + 1) visited m =
      if m ∈ visited then some (0, visited)
      else
        if ((mapGet g.edges m).getD []).isEmpty then some (1, visited ++ [m])
        else
          (((mapGet g.edges m).getD []).foldl
            (fun acc c => acc.bind (fun dv =>
              (dfsDepth g fuel dv.2 c).map (fun r => (max dv.1 r.1, r.2))))
            (some (0, visited ++ [m]))).map (fun dv => (dv.1 + 1, dv.2)) := rfl

theorem depthFold_none (g : ModuleGraph) (fuel : Nat) (cs : List String) :
    cs.foldl (fun acc c => acc.bind (fun dv =>
      (dfsDepth g fuel dv.2 c).map (fun r => (max dv.1 r.1, r.2))))
      (none : Option (Nat × List String)) = none := by
  induction cs with
  | nil => rfl
  | cons c cs' ih => simpa using ih

theorem dfsDepth_extends (g : ModuleGraph) : ∀ (f : Nat) (vis : List String)
    (m : String) (dv : Nat × List String),
    vis.Nodup → (∀ x ∈ vis, x ∈ graphUniverse g) → m ∈ graphUniverse g →
    dfsDepth g f vis m = some dv →
    dv.2.Nodup ∧ (∀ x ∈ dv.2, x ∈ graphUniverse g) ∧ vis.length ≤ dv.2.length := by
  intro f
  induction f using Nat.strong_induction_on with
  | _ f ih =>
    intro vis m dv hnd hsub hm heq
    match f with
    | 0 => exact Option.noConfusion heq
    | F + 1 =>
      rw [dfsDepth_succ] at heq
      by_cases hmem : m ∈ vis
      · rw [if_pos hmem] at heq
        simp only [Option.some.injEq] at heq
        subst heq
        exact ⟨hnd, hsub, le_refl _⟩
      · rw [if_neg hmem] at heq
        have hnd2 : (vis ++ [m]).Nodup := by
          rw [List.nodup_append]
          exact ⟨hnd, List.nodup_singleton m, by simpa using hmem⟩
        have hsub2 : ∀ x ∈ vis ++ [m], x ∈ graphUniverse g := by
          intro x hx
          rcases List.mem_append.mp hx with hx | hx
          · exact hsub x hx
          · simp only [List.mem_singleton] at hx
            exact hx ▸ hm
        by_cases hch : ((mapGet g.edges m).getD []).isEmpty
        · rw [if_pos hch] at heq
          simp only [Option.some.injEq] at heq
          subst heq
          refine ⟨hnd2, hsub2, by simp⟩
        · rw [if_neg hch] at heq
          obtain ⟨dv0, hdv0, hdv⟩ := Option.map_eq_some'.mp heq
          have inner : ∀ (cs : List String) (acc : Nat × List String),
              acc.2.Nodup → (∀ x ∈ acc.2, x ∈ graphUniverse g) →
              (∀ c ∈ cs, c ∈ graphUniverse g) →
              cs.foldl (fun acc c => acc.bind (fun dv =>
                (dfsDepth g F dv.2 c).map (fun r => (max dv.1 r.1, r.2))))
                (some acc) = some dv0 →
              dv0.2.Nodup ∧ (∀ x ∈ dv0.2, x ∈ graphUniverse g) ∧
                acc.2.length ≤ dv0.2.length := by
            intro cs
            induction cs with
            | nil =>
              intro acc h1 h2 _ hfold
              simp only [List.foldl_nil, Option.some.injEq] at hfold
              subst hfold
              exact ⟨h1, h2, le_refl _⟩
            | cons c cs' ihc =>
              intro acc h1 h2 hcs hfold
              rw [List.foldl_cons] at hfold
              simp only [Option.some_bind] at hfold
              cases hstep : dfsDepth g F acc.2 c with
              | none =>
                rw [hstep] at hfold
                simp only [Option.map_none'] at hfold
                rw [depthFold_none] at hfold
                exact Option.noConfusion hfold
              | some r =>
                rw [hstep] at hfold
                simp only [Option.map_some'] at hfold
                have hr := ih F (by omega) acc.2 c r h1 h2 (hcs c (by simp)) hstep
                have := ihc (max acc.1 r.1, r.2) hr.1 hr.2.1
                  (fun c2 hc2 => hcs c2 (by simp [hc2])) hfold
                exact ⟨this.1, this.2.1, le_trans hr.2.2 this.2.2⟩
          have hin := inner ((mapGet g.edges m).getD []) (0, vis ++ [m]) hnd2 hsub2
            (fun c hc => mem_graphUniverse_of_child hc) hdv0
          subst hdv
          refine ⟨hin.1, hin.2.1, ?_⟩
          show vis.length ≤ dv0.2.length
          have := hin.2.2
          simp only [List.length_append, List.length_singleton] at this
          omega

theorem dfsDepth_fuel (g : ModuleGraph) : ∀ (f1 f2 : Nat) (vis : List String)
    (m : String),
    vis.Nodup → (∀ x ∈ vis, x ∈ graphUniverse g) → m ∈ graphUniverse g →
    (graphUniverse g).length - vis.length < f1 →
    (graphUniverse g).length - vis.length < f2 →
    dfsDepth g f1 vis m = dfsDepth g f2 vis m ∧ (dfsDepth g f1 vis m).isSome := by
  intro f1
  induction f1 using Nat.strong_induction_on with
  | _ f1 ih =>
    intro f2 vis m hnd hsub hm h1 h2
    match f1, f2 with
    | 0, _ => omega
    | _ + 1, 0 => omega
    | F + 1, F' + 1 =>
      rw [dfsDepth_succ, dfsDepth_succ]
      by_cases hmem : m ∈ vis
      · rw [if_pos hmem, if_pos hmem]
        exact ⟨rfl, rfl⟩
      · rw [if_neg hmem, if_neg hmem]
        have hnd2 : (vis ++ [m]).Nodup := by
          rw [List.nodup_append]
          exact ⟨hnd, List.nodup_singleton m, by simpa using hmem⟩
        have hsub2 : ∀ x ∈ vis ++ [m], x ∈ graphUniverse g := by
          intro x hx
          rcases List.mem_append.mp hx with hx | hx
          · exact hsub x hx
          · simp only [List.mem_singleton] at hx
            exact hx ▸ hm
        have hlen2 : (vis ++ [m]).length ≤ (graphUniverse g).length :=
          nodup_subset_length_le hnd2 hsub2
        by_cases hch : ((mapGet g.edges m).getD []).isEmpty
        · rw [if_pos hch, if_pos hch]
          exact ⟨rfl, rfl⟩
        · rw [if_neg hch, if_neg hch]
          have inner : ∀ (cs : List String) (acc : Nat × List String),
              acc.2.Nodup → (∀ x ∈ acc.2, x ∈ graphUniverse g) →
              (vis ++ [m]).length ≤ acc.2.length →
              (∀ c ∈ cs, c ∈ graphUniverse g) →
              cs.foldl (fun acc c => acc.bind (fun dv =>
                (dfsDepth g F dv.2 c).map (fun r => (max dv.1 r.1, r.2))))
                (some acc) =
              cs.foldl (fun acc c => acc.bind (fun dv =>
                (dfsDepth g F' dv.2 c).map (fun r => (max dv.1 r.1, r.2))))
                (some acc) ∧
              (cs.foldl (fun acc c => acc.bind (fun dv =>
                (dfsDepth g F dv.2 c).map (fun r => (max dv.1 r.1, r.2))))
                (some acc)).isSome := by
            intro cs
            induction cs with
            | nil => intro acc _ _ _ _; exact ⟨rfl, rfl⟩
            | cons c cs' ihc =>
              intro acc h1 h2 h3 hcs
              have hmeasF : (graphUniverse g).length - acc.2.length < F := by
                simp only [List.length_append, List.length_singleton] at hlen2 h3
                omega
              have hmeasF' : (graphUniverse g).length - acc.2.length < F' := by
                simp only [List.length_append, List.length_singleton] at hlen2 h3
                omega
              have hc := ih F (by omega) F' acc.2 c h1 h2 (hcs c (by simp))
                hmeasF hmeasF'
              obtain ⟨r, hr⟩ := Option.isSome_iff_exists.mp hc.2
              have hext := dfsDepth_extends g F acc.2 c r h1 h2 (hcs c (by simp)) hr
              rw [List.foldl_cons, List.foldl_cons]
              simp only [Option.some_bind]
              rw [hr, ← hc.1, hr]
              simp only [Option.map_some']
              exact ihc (max acc.1 r.1, r.2) hext.1 hext.2.1
                (le_trans h3 hext.2.2) (fun c2 hc2 => hcs c2 (by simp [hc2]))
          have hin := inner ((mapGet g.edges m).getD []) (0, vis ++ [m]) hnd2 hsub2
            (le_refl _) (fun c hc => mem_graphUniverse_of_child hc)
          exact ⟨by rw [hin.1], by
            obtain ⟨r, hr⟩ := Option.isSome_iff_exists.mp hin.2
            rw [hr]
            rfl⟩

theorem getModuleComplexityFuel_stable (g : ModuleGraph) (name : String)
    (fuel : Nat) (h : depthBound g name ≤ fuel) :
    getModuleComplexityFuel g name fuel =
      getModuleComplexityFuel g name (depthBound g name) ∧
    (getModuleComplexityFuel g name (depthBound g name)).isSome := by
  unfold getModuleComplexityFuel
  cases hn : mapGet g.nodes name with
  | none => exact ⟨rfl, rfl⟩
  | some node =>
    have hname : name ∈ graphUniverse g :=
      mem_graphUniverse_of_node
        (List.mem_map.mpr ⟨(name, node), mem_of_mapGet_eq_some hn, rfl⟩)
    have hd := dfsDepth_fuel g fuel (depthBound g name) [] name List.nodup_nil
      (by simp) hname
      (by unfold depthBound at h; simp only [List.length_nil]; omega)
      (by unfold depthBound; simp only [List.length_nil]; omega)
    unfold calculateHierarchyDepthFuel
    rw [hd.1]
    obtain ⟨r, hr⟩ := Option.isSome_iff_exists.mp (hd.1 ▸ hd.2)
    rw [hr]
    exact ⟨rfl, rfl⟩

/-- C7: `getCriticalPath()` and `getModuleComplexity(name)` terminate and
return a finite result on every graph produced by `buildGraph`, including
cyclic instantiation graphs: their fuel-indexed embeddings stabilize (are
independent of the fuel) once the fuel reaches the computable bound
`universe size + 1`, and at that bound they return a value (never the
out-of-fuel marker). -/
theorem graph_walks_terminate (ms : List ModuleInfo) (insts : List InstanceInfo)
    (name : String) (fuel : Nat)
    (h1 : criticalPathBound (buildGraph ms insts) ≤ fuel)
    (h2 : depthBound (buildGraph ms insts) name ≤ fuel) :
    (getCriticalPathFuel (buildGraph ms insts) fuel =
      getCriticalPathFuel (buildGraph ms insts)
        (criticalPathBound (buildGraph ms insts))) ∧
    (getCriticalPathFuel (buildGraph ms insts)
      (criticalPathBound (buildGraph ms insts))).isSome ∧
    (getModuleComplexityFuel (buildGraph ms insts) name fuel =
      getModuleComplexityFuel (buildGraph ms insts) name
        (depthBound (buildGraph ms insts) name)) ∧
    (getModuleComplexityFuel (buildGraph ms insts) name
      (depthBound (buildGraph ms insts) name)).isSome := by
  obtain ⟨hcp1, hcp2⟩ := getCriticalPathFuel_stable (buildGraph ms insts) fuel h1
  obtain ⟨hmc1, hmc2⟩ := getModuleComplexityFuel_stable (buildGraph ms insts) name fuel h2
  exact ⟨hcp1, hcp2, hmc1, hmc2⟩

set_option maxRecDepth 100000 in
/-- Witness for C7 at the cyclic design `A` instantiates `B`, `B` instantiates
`A`. -/
theorem graph_walks_terminate_witness :
    criticalPathBound (buildGraph
      [⟨"A", "/a.v", 0, 0, []⟩, ⟨"B", "/b.v", 0, 0, []⟩]
      [⟨"uB", "B", [], "/a.v", 0⟩, ⟨"uA", "A", [], "/b.v", 0⟩]) ≤ 3 ∧
    depthBound (buildGraph
      [⟨"A", "/a.v", 0, 0, []⟩, ⟨"B", "/b.v", 0, 0, []⟩]
      [⟨"uB", "B", [], "/a.v", 0⟩, ⟨"uA", "A", [], "/b.v", 0⟩]) "A" ≤ 3 ∧
    ((getCriticalPathFuel (buildGraph
        [⟨"A", "/a.v", 0, 0, []⟩, ⟨"B", "/b.v", 0, 0, []⟩]
        [⟨"uB", "B", [], "/a.v", 0⟩, ⟨"uA", "A", [], "/b.v", 0⟩]) 3 =
      getCriticalPathFuel (buildGraph
        [⟨"A", "/a.v", 0, 0, []⟩, ⟨"B", "/b.v", 0, 0, []⟩]
        [⟨"uB", "B", [], "/a.v", 0⟩, ⟨"uA", "A", [], "/b.v", 0⟩])
        (criticalPathBound (buildGraph
          [⟨"A", "/a.v", 0, 0, []⟩, ⟨"B", "/b.v", 0, 0, []⟩]
          [⟨"uB", "B", [], "/a.v", 0⟩, ⟨"uA", "A", [], "/b.v", 0⟩]))) ∧
    (getCriticalPathFuel (buildGraph
        [⟨"A", "/a.v", 0, 0, []⟩, ⟨"B", "/b.v", 0, 0, []⟩]
        [⟨"uB", "B", [], "/a.v", 0⟩, ⟨"uA", "A", [], "/b.v", 0⟩])
        (criticalPathBound (buildGraph
          [⟨"A", "/a.v", 0, 0, []⟩, ⟨"B", "/b.v", 0, 0, []⟩]
          [⟨"uB", "B", [], "/a.v", 0⟩, ⟨"uA", "A", [], "/b.v", 0⟩]))).isSome ∧
    (getModuleComplexityFuel (buildGraph
        [⟨"A", "/a.v", 0, 0, []⟩, ⟨"B", "/b.v", 0, 0, []⟩]
        [⟨"uB", "B", [], "/a.v", 0⟩, ⟨"uA", "A", [], "/b.v", 0⟩]) "A" 3 =
      getModuleComplexityFuel (buildGraph
        [⟨"A", "/a.v", 0, 0, []⟩, ⟨"B", "/b.v", 0, 0, []⟩]
        [⟨"uB", "B", [], "/a.v", 0⟩, ⟨"uA", "A", [], "/b.v", 0⟩]) "A"
        (depthBound (buildGraph
          [⟨"A", "/a.v", 0, 0, []⟩, ⟨"B", "/b.v", 0, 0, []⟩]
          [⟨"uB", "B", [], "/a.v", 0⟩, ⟨"uA", "A", [], "/b.v", 0⟩]) "A")) ∧
    (getModuleComplexityFuel (buildGraph
        [⟨"A", "/a.v", 0, 0, []⟩, ⟨"B", "/b.v", 0, 0, []⟩]
        [⟨"uB", "B", [], "/a.v", 0⟩, ⟨"uA", "A", [], "/b.v", 0⟩]) "A"
        (depthBound (buildGraph
          [⟨"A", "/a.v", 0, 0, []⟩, ⟨"B", "/b.v", 0, 0, []⟩]
          [⟨"uB", "B", [], "/a.v", 0⟩, ⟨"uA", "A", [], "/b.v", 0⟩]) "A")).isSome) :=
  ⟨by decide, by decide,
    graph_walks_terminate
      [⟨"A", "/a.v", 0, 0, []⟩, ⟨"B", "/b.v", 0, 0, []⟩]
      [⟨"uB", "B", [], "/a.v", 0⟩, ⟨"uA", "A", [], "/b.v", 0⟩]
      "A" 3 (by decide) (by decide)⟩

end CodingEngine
